import Mathlib

/-!
Verification development for the Glassbox calculation engine
(`glassbox/engine.py`).  The Python source is shallowly embedded here:

* values are modelled as rationals (`ℚ`); every arithmetic step the claims
  exercise is exact in double precision, so `ℚ` is a faithful value domain;
  the two helpers whose behaviour on non-finite floats is at issue
  (`_IF` / `_np_IF`) are additionally modelled over an explicit `PyFloat`
  type carrying `nan` and the infinities;
* the reference context (Python's `self.context` string-keyed dict) is a
  function from a structured `RefKey` type (in bijection with the
  reference-name strings the engine uses) to optional arrays;
* formula strings are modelled as abstract syntax (`SX` for the simple
  sub-language, `FX` for full formulas whose array-function arguments are
  simple expressions — the source's regexes cannot parse nested array
  functions, so this stratification matches the code); a `bad` leaf models
  a token on which Python's `compile`/`eval` raises (a parse error or an
  undefined name), which `_safe_eval` / `_try_numpy_eval` catch;
* Python `while` loops are translated as fuel-based structural recursions
  with fuel provably (or visibly) larger than the iteration count, so the
  Lean functions compute exactly what the Python loops compute.
-/

/-
Batteries marks the `Rat` arithmetic operations `@[irreducible]`, which
blocks the `decide` front end's reduction (the kernel itself always unfolds
them, so every proof below is still fully kernel-checked).
-/
unseal Rat.add Rat.sub Rat.mul Rat.inv

namespace Glassbox

/-! ### Python float model for `_IF` / `_np_IF` (engine.py lines 427-428, 495-496) -/

/-- Model of a Python `float` value: a finite value (exact rational) or one
of the non-finite values `inf`, `-inf`, `nan`. -/
inductive PyFloat where
  | finite (q : ℚ)
  | inf
  | negInf
  | nan
deriving DecidableEq, Repr

/-- Python truthiness of a float (`bool(x)`): every non-zero value is truthy,
including `nan` and the infinities. -/
def pyTruthy : PyFloat → Bool
  | .finite q => q ≠ 0
  | _ => true

/-- Embedding of `_IF(cond, t, f): return t if cond else f`
(engine.py line 427-428): Python's conditional expression on the truthiness
of `cond`. -/
def scalarIF (cond t f : PyFloat) : PyFloat :=
  if pyTruthy cond then t else f

/-- Per-element behaviour of `_np_IF(cond, t, f): return np.where(cond, t, f)`
(engine.py line 495-497): `np.where` treats an element as selecting `t`
exactly when it is non-zero, and `nan` and the infinities are non-zero. -/
def npIF (cond t f : PyFloat) : PyFloat :=
  if pyTruthy cond then t else f

/-! ### Python rounding model for `_ROUND` / `_np_ROUND` (engine.py lines 439-441, 508-509) -/

/-- Python 3's builtin `round` on a float value (modelled exactly on the
rationals): round-half-to-even (banker's rounding). -/
def pyRound (x : ℚ) : ℤ :=
  if x - (x.floor : ℚ) < 1/2 then x.floor
  else if (1:ℚ)/2 < x - (x.floor : ℚ) then x.floor + 1
  else if x.floor % 2 = 0 then x.floor else x.floor + 1

theorem pyRound_eq_floorRing (x : ℚ) :
    pyRound x =
      if x - (⌊x⌋ : ℚ) < 1/2 then ⌊x⌋
      else if (1:ℚ)/2 < x - (⌊x⌋ : ℚ) then ⌊x⌋ + 1
      else if 2 ∣ ⌊x⌋ then ⌊x⌋ else ⌊x⌋ + 1 := by
  have h2 : (⌊x⌋ % 2 = 0) ↔ (2 ∣ ⌊x⌋) := ⟨Int.dvd_of_emod_eq_zero, Int.emod_eq_zero_of_dvd⟩
  unfold pyRound
  rw [show x.floor = ⌊x⌋ from rfl]
  simp only [h2]

/-- Embedding of `_ROUND(x, n): factor = 10 ** int(n); return
round(x * factor) / factor` (engine.py lines 439-441). -/
def scalarROUND (x : ℚ) (n : ℕ) : ℚ :=
  let factor : ℚ := (10 : ℚ) ^ n
  (pyRound (x * factor) : ℚ) / factor

/-- Per-element behaviour of `_np_ROUND(x, n): return np.round(x, int(n))`
(engine.py lines 508-509): `np.round` scales by `10^n`, rounds
half-to-even, and unscales. -/
def npROUND (x : ℚ) (n : ℕ) : ℚ :=
  let factor : ℚ := (10 : ℚ) ^ n
  (pyRound (x * factor) : ℚ) / factor

theorem pyRound_le_half (x : ℚ) : |x - pyRound x| ≤ 1/2 := by
  rw [pyRound_eq_floorRing]
  have hf : (⌊x⌋ : ℚ) ≤ x := Int.floor_le x
  have hlt : x < ⌊x⌋ + 1 := Int.lt_floor_add_one x
  by_cases h1 : x - (⌊x⌋ : ℚ) < 1/2
  · rw [if_pos h1, abs_le]
    constructor <;> linarith
  · rw [if_neg h1]
    by_cases h2 : (1:ℚ)/2 < x - (⌊x⌋ : ℚ)
    · rw [if_pos h2, abs_le]
      constructor <;> push_cast <;> linarith
    · rw [if_neg h2]
      have he : x - (⌊x⌋ : ℚ) = 1/2 := le_antisymm (not_lt.mp h2) (not_lt.mp h1)
      by_cases h3 : 2 ∣ ⌊x⌋ <;> [rw [if_pos h3]; rw [if_neg h3]] <;>
        rw [abs_le] <;> constructor <;> push_cast <;> linarith

theorem pyRound_even_of_tie (x : ℚ) (h : |x - pyRound x| = 1/2) :
    2 ∣ pyRound x := by
  have hf : (⌊x⌋ : ℚ) ≤ x := Int.floor_le x
  have hlt : x < ⌊x⌋ + 1 := Int.lt_floor_add_one x
  by_cases h1 : x - (⌊x⌋ : ℚ) < 1/2
  · exfalso
    rw [show pyRound x = ⌊x⌋ by rw [pyRound_eq_floorRing, if_pos h1]] at h
    rcases (abs_eq (by norm_num : (0:ℚ) ≤ 1/2)).mp h with h' | h' <;> linarith
  · by_cases h2 : (1:ℚ)/2 < x - (⌊x⌋ : ℚ)
    · exfalso
      rw [show pyRound x = ⌊x⌋ + 1 by rw [pyRound_eq_floorRing, if_neg h1, if_pos h2]] at h
      rcases (abs_eq (by norm_num : (0:ℚ) ≤ 1/2)).mp h with h' | h' <;> push_cast at h' <;>
        linarith
    · by_cases h3 : 2 ∣ ⌊x⌋
      · rwa [show pyRound x = ⌊x⌋ by rw [pyRound_eq_floorRing, if_neg h1, if_neg h2, if_pos h3]]
      · rw [show pyRound x = ⌊x⌋ + 1 by rw [pyRound_eq_floorRing, if_neg h1, if_neg h2, if_neg h3]]
        rcases Int.even_or_odd ⌊x⌋ with he' | ho
        · exact absurd he'.two_dvd h3
        · rcases ho with ⟨k, hk⟩
          exact ⟨k + 1, by omega⟩

/-! ### Reference keys and context (`self.context`, engine.py line 1350)

The Python context is a dict keyed by reference-name strings
(`"R12"`, `"T.DiM"`, `"F2.Start"`, `"I1"`, `"V1.5"`, …).  The string
syntax of the families is injective, so we key the context by a structured
type in bijection with those strings. -/

/-- Structured reference name.  `R i ↔ "R<i>"`, `T s ↔ "T.<s>"`,
`F i ↔ "F<i>"`, `Fstart i ↔ "F<i>.Start"`, `Fend i ↔ "F<i>.End"`,
`I i ↔ "I<i>"`, `G c g ↔ "<c><g>"` (group subtotal, `c` the family letter),
`Gi c g k ↔ "<c><g>.<k>"` (group item). -/
inductive RefKey where
  | R (i : ℕ)
  | T (s : String)
  | F (i : ℕ)
  | Fstart (i : ℕ)
  | Fend (i : ℕ)
  | I (i : ℕ)
  | G (c : Char) (g : ℕ)
  | Gi (c : Char) (g : ℕ) (item : ℕ)
deriving DecidableEq, Repr

/-- The engine's reference context: a map from reference names to arrays
(Python dict lookup semantics). -/
def Ctx : Type := RefKey → Option (List ℚ)

/-- The empty context (fresh engine: `self.context = {}`). -/
def Ctx.empty : Ctx := fun _ => none

/-- Dict assignment `context[k] = v`. -/
def ctxInsert (ctx : Ctx) (k : RefKey) (v : List ℚ) : Ctx :=
  fun k' => if k' = k then some v else ctx k'

/-- Dict bulk update `context.update(pairs)` — later pairs overwrite
earlier ones and all overwrite the base context. -/
def ctxUpdate (ctx : Ctx) (l : List (RefKey × List ℚ)) : Ctx :=
  l.foldl (fun c p => ctxInsert c p.1 p.2) ctx

/-! ### Timeline (`build_timeline`, engine.py lines 31-57) -/

/-- The `config` block: start and end year/month (inclusive). -/
structure TLConfig where
  startYear : ℤ
  startMonth : ℤ
  endYear : ℤ
  endMonth : ℤ
deriving DecidableEq, Repr

/-- Month enumeration with calendar carry, for a given number of steps:
the body of the `while` loop of `build_timeline` (and of
`_generate_periods_for_group`). -/
def monthsFrom (y m : ℤ) : ℕ → List (ℤ × ℤ)
  | 0 => []
  | n + 1 => (y, m) :: (if m + 1 > 12 then monthsFrom (y + 1) 1 n else monthsFrom y (m + 1) n)

/-- Inclusive month range.  The Python loop `while y < ey or (y == ey and
m <= em)` advances `y*12+m` by exactly one per iteration (the carry keeps
`1 ≤ m ≤ 12` after the first step), so for month values in range `1..12`
it runs exactly `(ey*12+em) - (sy*12+sm) + 1` times when that is
nonnegative, and zero times otherwise. -/
def monthRange (sy sm ey em : ℤ) : List (ℤ × ℤ) :=
  monthsFrom sy sm (ey * 12 + em - (sy * 12 + sm) + 1).toNat

/-- Result of `build_timeline`: period count and the `year`/`month` arrays. -/
structure Timeline where
  periods : ℕ
  year : List ℤ
  month : List ℤ
deriving DecidableEq, Repr

/-- Embedding of `build_timeline` (engine.py lines 31-57). -/
def buildTimeline (cfg : TLConfig) : Timeline :=
  let ym := monthRange cfg.startYear cfg.startMonth cfg.endYear cfg.endMonth
  { periods := ym.length, year := ym.map Prod.fst, month := ym.map Prod.snd }

/-- Embedding of `_is_leap` (engine.py lines 60-61). -/
def isLeap (y : ℤ) : Bool :=
  (y % 4 == 0 && y % 100 != 0) || y % 400 == 0

/-- Embedding of `_days_in_month` (engine.py lines 64-69). -/
def daysInMonth (y m : ℤ) : ℤ :=
  if m = 1 ∨ m = 3 ∨ m = 5 ∨ m = 7 ∨ m = 8 ∨ m = 10 ∨ m = 12 then 31
  else if m = 4 ∨ m = 6 ∨ m = 9 ∨ m = 11 then 30
  else if isLeap y then 29 else 28

/-! ### Time constants (`build_time_constants`, engine.py lines 76-119) -/

/-- Embedding of `build_time_constants`: the `T.*` reference arrays, in the
source's dict-insertion order. -/
def buildTimeConstants (tl : Timeline) : List (RefKey × List ℚ) :=
  let ym := tl.year.zip tl.month
  let dim := ym.map (fun p => (daysInMonth p.1 p.2 : ℚ))
  let diy := ym.map (fun p => ((if isLeap p.1 then 366 else 365 : ℤ) : ℚ))
  let him := ym.map (fun p => ((daysInMonth p.1 p.2 * 24 : ℤ) : ℚ))
  let hiy := ym.map (fun p => (((if isLeap p.1 then 366 else 365) * 24 : ℤ) : ℚ))
  let diq := ym.map (fun p =>
    let q := (p.2 - 1) / 3
    let sm := q * 3 + 1
    ((daysInMonth p.1 sm + daysInMonth p.1 (sm + 1) + daysInMonth p.1 (sm + 2) : ℤ) : ℚ))
  let qe := tl.month.map (fun m => if m = 3 ∨ m = 6 ∨ m = 9 ∨ m = 12 then (1 : ℚ) else 0)
  let cye := tl.month.map (fun m => if m = 12 then (1 : ℚ) else 0)
  let fye := tl.month.map (fun m => if m = 6 then (1 : ℚ) else 0)
  [(.T "DiM", dim), (.T "DiY", diy), (.T "HiM", him), (.T "HiY", hiy),
   (.T "DiQ", diq), (.T "QE", qe), (.T "CYE", cye), (.T "FYE", fye),
   (.T "MiY", List.replicate tl.periods 12), (.T "QiY", List.replicate tl.periods 4),
   (.T "HiD", List.replicate tl.periods 24), (.T "MiQ", List.replicate tl.periods 3)]

/-! ### Key-period flags (`build_flag_refs`, engine.py lines 126-161) -/

/-- A `keyPeriods` entry. -/
structure KeyPeriod where
  id : ℕ
  startYear : ℤ
  startMonth : ℤ
  endYear : ℤ
  endMonth : ℤ
deriving DecidableEq, Repr

/-- One-hot array of length `n` at index `j` (all zeros when `j` is `none`). -/
def oneHot (n : ℕ) : Option ℕ → List ℚ
  | none => List.replicate n 0
  | some j => (List.range n).map (fun t => if t = j then 1 else 0)

/-- Embedding of `build_flag_refs`: for each key period, the activity flag
`F<id>`, the one-hot `F<id>.Start` at the first active index and
`F<id>.End` at the last active index. -/
def buildFlagRefs (kps : List KeyPeriod) (tl : Timeline) : List (RefKey × List ℚ) :=
  kps.flatMap (fun kp =>
    let st := kp.startYear * 12 + kp.startMonth
    let en := kp.endYear * 12 + kp.endMonth
    let pts := (tl.year.zip tl.month).map (fun p => p.1 * 12 + p.2)
    let active : ℤ → Bool := fun pt => decide (st ≤ pt ∧ pt ≤ en)
    let arr := pts.map (fun pt => if active pt then (1 : ℚ) else 0)
    let idxs := (List.range pts.length).filter (fun i => active (pts.getD i 0))
    [(.F kp.id, arr),
     (.Fstart kp.id, oneHot tl.periods idxs.head?),
     (.Fend kp.id, oneHot tl.periods idxs.getLast?)])

/-! ### Indexation (`build_indexation_refs`, engine.py lines 168-204) -/

/-- An `indices` entry.  The optional `name` models Python's
`idx_def.get('name')`; `indexationPeriod` models
`.get('indexationPeriod', 'annual')`. -/
structure IndexDef where
  id : ℕ
  name : Option String := none
  indexationStartYear : ℤ := 0
  indexationStartMonth : ℤ := 0
  indexationRate : ℚ := 0
  indexationPeriod : Option String := none
deriving DecidableEq, Repr

/-- Embedding of `build_indexation_refs`.  An entry named `"None"` or with
id 1 yields the all-ones array; otherwise a compound-growth factor from the
indexation start date (1.0 before it).  The exponents `months_elapsed` and
`years_elapsed` are nonnegative whenever the start month lies in `1..12`
(as in any well-formed document), so `ℕ` exponents are exact. -/
def buildIndexationRefs (indices : List IndexDef) (tl : Timeline) : List (RefKey × List ℚ) :=
  indices.flatMap (fun idx =>
    if idx.name = some "None" ∨ idx.id = 1 then
      [(.I idx.id, List.replicate tl.periods 1)]
    else
      let st := idx.indexationStartYear * 12 + idx.indexationStartMonth
      let rate := idx.indexationRate / 100
      let arr := (tl.year.zip tl.month).map (fun p =>
        let pt := p.1 * 12 + p.2
        if st ≤ pt then
          if idx.indexationPeriod = some "monthly" then
            (1 + rate / 12) ^ (pt - st).toNat
          else
            (1 + rate) ^ (p.1 - idx.indexationStartYear).toNat
        else 1)
      [(.I idx.id, arr)])

/-! ### Input groups (`build_input_group_refs` and helpers,
engine.py lines 211-389) -/

/-- An `inputGlassGroups` entry.  `Option` fields model Python's
`dict.get` with its defaults applied at use sites; `linkedKeyPeriodId` is
`none` for an absent, falsy (`None`/`0`) or `'constant'` link. -/
structure InputGroup where
  id : ℕ
  groupType : Option String := none
  entryMode : Option String := none
  frequency : Option String := none
  linkedKeyPeriodId : Option ℕ := none
deriving DecidableEq, Repr

/-- An `inputGlass` entry.  `values` is the sparse `{indexStr → number}`
dict in its insertion order; `value := none` models an absent or `None`
value (`inp.get('value', 0) or 0` reads it as 0). -/
structure InputItem where
  id : ℕ
  groupId : ℕ
  entryMode : Option String := none
  valueFrequency : Option String := none
  seriesFrequency : Option String := none
  value : Option ℚ := none
  values : List (ℕ × ℚ) := []
  spreadMethod : Option String := none
deriving DecidableEq, Repr

/-- Python's `a or b` for optional strings: `b` when `a` is absent or the
empty string. -/
def orElseStr (a : Option String) (b : String) : String :=
  match a with
  | some s => if s = "" then b else s
  | none => b

/-- Embedding of `_generate_periods_for_group` (engine.py lines 211-234). -/
def generatePeriodsForGroup (g : InputGroup) (cfg : TLConfig) (kps : List KeyPeriod) :
    List (ℤ × ℤ) :=
  match g.linkedKeyPeriodId with
  | some lid =>
      match kps.find? (fun k => k.id = lid) with
      | some kp => monthRange kp.startYear kp.startMonth kp.endYear kp.endMonth
      | none => monthRange cfg.startYear cfg.startMonth cfg.endYear cfg.endMonth
  | none => monthRange cfg.startYear cfg.startMonth cfg.endYear cfg.endMonth

/-- Write a sparse list of `(index, value)` pairs into a dense list; later
pairs overwrite earlier ones, out-of-range indices are ignored (Python's
`if 0 <= idx < n` guard; `List.set` is the identity out of range). -/
def setSparse (base : List ℚ) (pairs : List (ℕ × ℚ)) : List ℚ :=
  pairs.foldl (fun acc p => acc.set p.1 p.2) base

/-- Embedding of `_get_values_for_input` (engine.py lines 237-297). -/
def getValuesForInput (inp : InputItem) (gp : List (ℤ × ℤ)) (g : InputGroup) : List ℚ :=
  let entryMode := orElseStr inp.entryMode (orElseStr g.entryMode "values")
  let n := gp.length
  if entryMode = "constant" ∨ g.groupType.getD "" = "constant" then
    let v0 := inp.value.getD 0
    let v := if inp.spreadMethod.getD "lookup" = "spread" then
               (if 0 < n then v0 / n else 0) else v0
    List.replicate n v
  else
    let freq := orElseStr inp.valueFrequency (orElseStr inp.seriesFrequency
      (orElseStr g.frequency "M"))
    if (entryMode = "series" ∨ g.entryMode = some "series") ∧
        inp.entryMode.getD "constant" = "constant" then
      let v0 := inp.value.getD 0
      let v := if freq = "Q" then v0 / 3 else if freq = "Y" then v0 / 12 else v0
      List.replicate n v
    else if inp.values = [] then
      List.replicate n 0
    else if freq = "M" then
      setSparse (List.replicate n 0) inp.values
    else
      let monthsPer : ℕ := if freq = "Q" then 3 else 12
      setSparse (List.replicate n 0)
        (inp.values.flatMap (fun p =>
          (List.range monthsPer).map (fun off =>
            (p.1 * monthsPer + off, p.2 / monthsPer))))

/-- First-occurrence deduplication (Python dict key order). -/
def dedupFirst (l : List ℕ) : List ℕ :=
  l.foldl (fun acc x => if x ∈ acc then acc else acc ++ [x]) []

/-- Last-write-wins association lookup (Python dict value). -/
def assocLast {α : Type} (l : List (ℕ × α)) (k : ℕ) : Option α :=
  (l.reverse.find? (fun p => p.1 = k)).map (fun p => p.2)

/-- Normalized group mode (`build_input_group_refs`, engine.py lines
334-345). -/
def normalizedMode (g : InputGroup) : String :=
  let gt := g.groupType.getD ""
  if gt = "timing" then "timing"
  else if gt = "constant" then "constant"
  else
    let gm := g.entryMode.getD "values"
    if gm = "lookup" ∨ gm = "lookup2" then "lookup" else gm

/-- Family letter for a normalized mode (`prefix_map`, engine.py line 348;
default `'V'`). -/
def familyChar (norm : String) : Char :=
  if norm = "timing" then 'T'
  else if norm = "series" then 'S'
  else if norm = "constant" then 'C'
  else if norm = "lookup" then 'L'
  else 'V'

/-- The timeline-index of a `(year, month)` pair (`tl_lookup`). -/
def tlIndex (tl : Timeline) (p : ℤ × ℤ) : Option ℕ :=
  (tl.year.zip tl.month).findIdx? (fun q => q = p)

/-- The dense array for one input of a group (`build_input_group_refs`,
engine.py lines 357-372): a constant-mode input broadcasts its first value;
otherwise each group-period value is placed at its timeline index. -/
def inputArrayFor (inp : InputItem) (g : InputGroup) (gp : List (ℤ × ℤ))
    (tl : Timeline) : List ℚ :=
  let vals := getValuesForInput inp gp g
  let entryMode := orElseStr inp.entryMode (orElseStr g.entryMode "values")
  if entryMode = "constant" ∧ vals ≠ [] then
    List.replicate tl.periods (vals.headD 0)
  else
    setSparse (List.replicate tl.periods 0)
      ((List.range gp.length).filterMap (fun pi =>
        match tlIndex tl (gp.getD pi (0, 0)) with
        | some t => if pi < vals.length then some (t, vals.getD pi 0) else none
        | none => none))

/-- Embedding of `build_input_group_refs` (engine.py lines 300-389):
group subtotals `<c><k>` and items `<c><k>.<item>`, with per-family
numbering of active groups in document order and the constants-group-100
item renumbering quirk (`inp_num = id - 99`). -/
def buildInputGroupRefs (items : List InputItem) (groups : List InputGroup)
    (cfg : TLConfig) (kps : List KeyPeriod) (tl : Timeline) :
    List (RefKey × List ℚ) :=
  let activeGroups := groups.filter (fun g => items.any (fun i => i.groupId = g.id))
  (activeGroups.foldl (fun (st : (String → ℕ) × List (RefKey × List ℚ)) g =>
    let counters := st.1
    let norm := normalizedMode g
    let gIdx := counters norm + 1
    let counters' : String → ℕ := fun s => if s = norm then gIdx else counters s
    let c := familyChar norm
    let groupInputs := items.filter (fun i => i.groupId = g.id)
    let gp := generatePeriodsForGroup g cfg kps
    let inputArrays : List (ℕ × List ℚ) :=
      groupInputs.map (fun inp => (inp.id, inputArrayFor inp g gp tl))
    let subtotal := (dedupFirst (inputArrays.map Prod.fst)).foldl
      (fun acc i => List.zipWith (· + ·) acc
        ((assocLast inputArrays i).getD (List.replicate tl.periods 0)))
      (List.replicate tl.periods 0)
    let itemRefs := groupInputs.map (fun inp =>
      let itemNum := if g.id = 100 then inp.id - 99 else inp.id
      ((RefKey.Gi c gIdx itemNum),
       (assocLast inputArrays inp.id).getD (List.replicate tl.periods 0)))
    (counters', st.2 ++ [(RefKey.G c gIdx, subtotal)] ++ itemRefs))
    ((fun _ => 0), [])).2

/-! ### The reference map (`_build_reference_map`, engine.py lines 1400-1428) -/

/-- The `model-inputs.json` document (the parts the engine reads). -/
structure InputsDoc where
  config : TLConfig
  keyPeriods : List KeyPeriod := []
  indices : List IndexDef := []
  inputGlass : List InputItem := []
  inputGlassGroups : List InputGroup := []
deriving Repr

/-- All reference-map entries, in the order the four builders are applied
by `_build_reference_map` (time constants, flags, indexation, groups).
The Python code additionally stores the timeline dict under the key
`'timeline'`; that entry is never read back through the formula context and
is omitted. -/
def refMapList (doc : InputsDoc) (tl : Timeline) : List (RefKey × List ℚ) :=
  buildTimeConstants tl ++ buildFlagRefs doc.keyPeriods tl ++
    buildIndexationRefs doc.indices tl ++
    buildInputGroupRefs doc.inputGlass doc.inputGlassGroups doc.config doc.keyPeriods tl

/-- Embedding of `_build_reference_map`: the successive `context.update`
calls. -/
def buildReferenceMap (ctx : Ctx) (doc : InputsDoc) (tl : Timeline) : Ctx :=
  ctxUpdate ctx (refMapList doc tl)

/-! ### Formula language

Formula strings are embedded as abstract syntax.  `SX` is the simple
sub-language (numbers, references, `+ - *`, `IF`); `FX` is a full formula,
whose array-function arguments are simple expressions (the source regexes
`[^,]+` / `[^)]+` cannot parse nested or comma-containing array-function
arguments, so this stratification reflects the code).  The leaf `bad`
stands for a token on which Python's `compile`/`eval` raises (a syntax
error or an undefined name): `_safe_eval` catches the exception and yields
`0.0` for the whole expression, `_try_numpy_eval` catches it and reports
failure.  An evaluation result of `none` models exactly that raised
exception. -/

/-- Simple expressions (no array functions). -/
inductive SX where
  | num (v : ℚ)
  | rref (i : ℕ)
  | iref (k : RefKey)
  | add (a b : SX)
  | sub (a b : SX)
  | mul (a b : SX)
  | ifE (c t f : SX)
  | bad
deriving DecidableEq, Repr

/-- Core per-period evaluation of a simple expression, mirroring the
substitution + `eval` of `_substitute_refs`/`_safe_eval`
(engine.py lines 453-477, 1044-1063):

* a known reference is substituted with `arr[t]` (`0.0` past the array end);
* an unknown `R`-reference is textually replaced by `0`
  (`re.sub(r'\bR\d+\b', '0', …)`);
* an unknown non-`R` reference survives substitution and makes `eval`
  raise `NameError` (`none` here), as does a `bad` token — `_safe_eval`
  then rescues the whole expression to `0.0`;
* `IF` is converted to the Python call `_IF(c, t, f)`, so all three
  arguments are evaluated (call-by-value) before the branch is chosen;
* on this operator set every value stays finite, so `_safe_eval`'s
  `math.isfinite` rescue never fires. -/
def SX.evalCore (ctx : Ctx) (t : ℕ) : SX → Option ℚ
  | .num v => some v
  | .rref i =>
      match ctx (.R i) with
      | some arr => some (arr.getD t 0)
      | none => some 0
  | .iref k =>
      match ctx k with
      | some arr => some (arr.getD t 0)
      | none => none
  | .add a b => do pure ((← a.evalCore ctx t) + (← b.evalCore ctx t))
  | .sub a b => do pure ((← a.evalCore ctx t) - (← b.evalCore ctx t))
  | .mul a b => do pure ((← a.evalCore ctx t) * (← b.evalCore ctx t))
  | .ifE c th el => do
      let cv ← c.evalCore ctx t
      let tv ← th.evalCore ctx t
      let ev ← el.evalCore ctx t
      pure (if cv ≠ 0 then tv else ev)
  | .bad => none

/-- Embedding of `_eval_simple_at_period` (engine.py lines 1044-1063):
guard for negative periods, then substitute + `_safe_eval` (exception →
`0.0`). -/
def evalSimpleAtPeriod (ctx : Ctx) (e : SX) (t : ℤ) : ℚ :=
  if t < 0 then 0 else (e.evalCore ctx t.toNat).getD 0

/-- Embedding of `_eval_expr_all_periods` (engine.py lines 571-596): on
this operator set the numpy fast path agrees pointwise with the per-period
fallback (both rescue a failed evaluation to `0.0` and resolve unknown
`R`-references to `0`), so the result is the per-period evaluation. -/
def evalExprAllPeriods (ctx : Ctx) (P : ℕ) (e : SX) : List ℚ :=
  (List.range P).map (fun t => (e.evalCore ctx t).getD 0)

/-! ### Array functions (engine.py lines 600-665) -/

/-- Embedding of `_shift` (engine.py lines 638-642):
`result[n:] = arr[:len-n]`, zeros elsewhere. -/
def shiftArr (l : List ℚ) (n : ℕ) : List ℚ :=
  List.replicate (min n l.length) 0 ++ l.take (l.length - n)

/-- Running-sum worker for `np.cumsum`. -/
def cumsumFrom (acc : ℚ) : List ℚ → List ℚ
  | [] => []
  | x :: xs => (acc + x) :: cumsumFrom (acc + x) xs

/-- Embedding of `_cumsum` (`np.cumsum`). -/
def cumsumArr (l : List ℚ) : List ℚ := cumsumFrom 0 l

/-- Worker for `_prevsum`. -/
def prevsumFrom (acc : ℚ) : List ℚ → List ℚ
  | [] => []
  | x :: xs => acc :: prevsumFrom (acc + x) xs

/-- Embedding of `_prevsum` (engine.py lines 644-650). -/
def prevsumArr (l : List ℚ) : List ℚ := prevsumFrom 0 l

/-- Embedding of `_prevval` (engine.py lines 652-656):
`result[1:] = arr[:-1]` when the array has more than one element. -/
def prevvalArr (l : List ℚ) : List ℚ :=
  if 1 < l.length then 0 :: l.dropLast else List.replicate l.length 0

/-- Worker for `_count_nonzero`. -/
def countFrom (acc : ℕ) : List ℚ → List ℚ
  | [] => []
  | x :: xs =>
      let acc' := if x ≠ 0 then acc + 1 else acc
      (acc' : ℚ) :: countFrom acc' xs

/-- Embedding of `_count_nonzero` (engine.py lines 658-665). -/
def countArr (l : List ℚ) : List ℚ := countFrom 0 l

/-- Running-product worker for `np.cumprod`. -/
def cumprodFrom (acc : ℚ) : List ℚ → List ℚ
  | [] => []
  | x :: xs => (acc * x) :: cumprodFrom (acc * x) xs

/-- Embedding of `_cumprod` (`np.cumprod`). -/
def cumprodArr (l : List ℚ) : List ℚ := cumprodFrom 1 l

/-- Worker for `_cumsum_y` (engine.py lines 603-617), carrying the running
total, the previously seen year and the value of the inner array at the
first period of the current year's run, exactly as the Python loop does. -/
def cumsumYGo (total : ℚ) (lastYear : Option ℤ) (lastVal : Option ℚ) :
    List (ℚ × ℤ) → List ℚ
  | [] => []
  | (a, y) :: rest =>
      let total' :=
        match lastYear, lastVal with
        | some ly, some lv => if y ≠ ly then total + lv else total
        | _, _ => total
      let lastVal' := if lastYear ≠ some y then some a else lastVal
      total' :: cumsumYGo total' (some y) lastVal' rest

/-- Embedding of `_cumsum_y`: yearly cumulative with opening-balance
semantics (when the calendar year changes, the accumulator absorbs the
inner array's value at the first period of the just-completed year). -/
def cumsumYArr (arr : List ℚ) (year : List ℤ) : List ℚ :=
  cumsumYGo 0 none none (arr.zip year)

/-- Worker for `_cumprod_y` (engine.py lines 622-636). -/
def cumprodYGo (product : ℚ) (lastYear : Option ℤ) (lastVal : Option ℚ) :
    List (ℚ × ℤ) → List ℚ
  | [] => []
  | (a, y) :: rest =>
      let product' :=
        match lastYear, lastVal with
        | some ly, some lv => if y ≠ ly then product * lv else product
        | _, _ => product
      let lastVal' := if lastYear ≠ some y then some a else lastVal
      product' :: cumprodYGo product' (some y) lastVal' rest

/-- Embedding of `_cumprod_y`. -/
def cumprodYArr (arr : List ℚ) (year : List ℤ) : List ℚ :=
  cumprodYGo 1 none none (arr.zip year)

/-! ### Full formulas -/

/-- Full formulas: the simple operators plus array-function calls whose
arguments are simple expressions. -/
inductive FX where
  | num (v : ℚ)
  | rref (i : ℕ)
  | iref (k : RefKey)
  | add (a b : FX)
  | sub (a b : FX)
  | mul (a b : FX)
  | ifE (c t f : FX)
  | bad
  | shift (e : SX) (n : ℕ)
  | prevsum (e : SX)
  | prevval (e : SX)
  | cumsum (e : SX)
  | cumsumY (e : SX)
  | cumprod (e : SX)
  | cumprodY (e : SX)
  | count (e : SX)
deriving DecidableEq, Repr

/-- Element `t` of an array, `0.0` out of range (placeholder splicing
`float(ph_arr[i]) if i < len(ph_arr) else 0.0`). -/
def arrGet (l : List ℚ) (t : ℕ) : ℚ := l.getD t 0

/-- Core of `evaluate_formula` (engine.py lines 726-781) at period `t`:
`_process_array_functions` pre-computes each array-function call over the
full timeline (inner expressions via `_eval_expr_all_periods`) and splices
the results as placeholder arrays; the remaining outer expression is then
evaluated (vectorized, or per period with identical results on this
operator set), with a raised exception modelled as `none`. -/
def FX.evalOuterCore (ctx : Ctx) (tl : Timeline) (t : ℕ) : FX → Option ℚ
  | .num v => some v
  | .rref i =>
      match ctx (.R i) with
      | some arr => some (arr.getD t 0)
      | none => some 0
  | .iref k =>
      match ctx k with
      | some arr => some (arr.getD t 0)
      | none => none
  | .add a b => do pure ((← a.evalOuterCore ctx tl t) + (← b.evalOuterCore ctx tl t))
  | .sub a b => do pure ((← a.evalOuterCore ctx tl t) - (← b.evalOuterCore ctx tl t))
  | .mul a b => do pure ((← a.evalOuterCore ctx tl t) * (← b.evalOuterCore ctx tl t))
  | .ifE c th el => do
      let cv ← c.evalOuterCore ctx tl t
      let tv ← th.evalOuterCore ctx tl t
      let ev ← el.evalOuterCore ctx tl t
      pure (if cv ≠ 0 then tv else ev)
  | .bad => none
  | .shift e n => some (arrGet (shiftArr (evalExprAllPeriods ctx tl.periods e) n) t)
  | .prevsum e => some (arrGet (prevsumArr (evalExprAllPeriods ctx tl.periods e)) t)
  | .prevval e => some (arrGet (prevvalArr (evalExprAllPeriods ctx tl.periods e)) t)
  | .cumsum e => some (arrGet (cumsumArr (evalExprAllPeriods ctx tl.periods e)) t)
  | .cumsumY e => some (arrGet (cumsumYArr (evalExprAllPeriods ctx tl.periods e) tl.year) t)
  | .cumprod e => some (arrGet (cumprodArr (evalExprAllPeriods ctx tl.periods e)) t)
  | .cumprodY e => some (arrGet (cumprodYArr (evalExprAllPeriods ctx tl.periods e) tl.year) t)
  | .count e => some (arrGet (countArr (evalExprAllPeriods ctx tl.periods e)) t)

/-- Embedding of `evaluate_formula` (engine.py lines 726-781): the result
array over all periods, with a failed per-period evaluation rescued to
`0.0`. -/
def FX.evaluate (ctx : Ctx) (tl : Timeline) (f : FX) : List ℚ :=
  (List.range tl.periods).map (fun t => (f.evalOuterCore ctx tl t).getD 0)

/-- Core of `_eval_formula_at_period` (engine.py lines 983-1041), used by
the cluster evaluator: array functions are expanded inline at the single
period `t`, their inner expressions evaluated per period by
`_eval_simple_at_period` against the current (partially filled) context.
`CUMSUM_Y` and `CUMPROD_Y` have no handler in `_eval_formula_at_period`
(its regexes `CUMSUM\s*\(` / `CUMPROD\s*\(` do not match the `_Y` names),
so those names survive to `eval` and raise `NameError` (`none`). -/
def FX.evalAtPeriodCore (ctx : Ctx) (t : ℕ) : FX → Option ℚ
  | .num v => some v
  | .rref i =>
      match ctx (.R i) with
      | some arr => some (arr.getD t 0)
      | none => some 0
  | .iref k =>
      match ctx k with
      | some arr => some (arr.getD t 0)
      | none => none
  | .add a b => do pure ((← a.evalAtPeriodCore ctx t) + (← b.evalAtPeriodCore ctx t))
  | .sub a b => do pure ((← a.evalAtPeriodCore ctx t) - (← b.evalAtPeriodCore ctx t))
  | .mul a b => do pure ((← a.evalAtPeriodCore ctx t) * (← b.evalAtPeriodCore ctx t))
  | .ifE c th el => do
      let cv ← c.evalAtPeriodCore ctx t
      let tv ← th.evalAtPeriodCore ctx t
      let ev ← el.evalAtPeriodCore ctx t
      pure (if cv ≠ 0 then tv else ev)
  | .bad => none
  | .shift e n => some (if n ≤ t then evalSimpleAtPeriod ctx e ((t : ℤ) - n) else 0)
  | .prevsum e => some (((List.range t).map (fun j => (e.evalCore ctx j).getD 0)).sum)
  | .prevval e => some (if 0 < t then (e.evalCore ctx (t - 1)).getD 0 else 0)
  | .cumsum e => some (((List.range (t + 1)).map (fun j => (e.evalCore ctx j).getD 0)).sum)
  | .cumsumY _ => none
  | .cumprod e => some (((List.range (t + 1)).map (fun j => (e.evalCore ctx j).getD 0)).prod)
  | .cumprodY _ => none
  | .count e =>
      some (((List.range (t + 1)).filter (fun j => (e.evalCore ctx j).getD 0 ≠ 0)).length : ℚ)

/-- Embedding of `_eval_formula_at_period` with its final `_safe_eval`
rescue. -/
def FX.evalAtPeriod (ctx : Ctx) (t : ℕ) (f : FX) : ℚ :=
  (f.evalAtPeriodCore ctx t).getD 0

/-! ### Cluster evaluator (`_evaluate_cluster_period_by_period`,
engine.py lines 938-980) -/

/-- Initialization: each cluster member's result array is a zero array,
registered in the context (the Python arrays are aliased between
`results` and `context`, so context updates below model the in-place
writes). -/
def clusterInit (order : List ℕ) (P : ℕ) (ctx : Ctx) : Ctx :=
  order.foldl (fun c n => ctxInsert c (.R n) (List.replicate P 0)) ctx

/-- One period of the cluster loop: each member in internal order is
evaluated at period `t` against the current context and its array entry
`t` is written (a member without a parseable formula keeps the zero
already there: `results[node_id][i] = 0.0`). -/
def clusterWrite (formulas : ℕ → Option FX) (t : ℕ) (c : Ctx) (n : ℕ) : Ctx :=
  match formulas n with
  | none => c
  | some f => ctxInsert c (.R n) (((c (.R n)).getD []).set t (FX.evalAtPeriod c t f))

/-- One period of the cluster loop, as the fold of the member writes. -/
def clusterStep (formulas : ℕ → Option FX) (order : List ℕ) (t : ℕ) (ctx : Ctx) : Ctx :=
  order.foldl (clusterWrite formulas t) ctx

/-- Embedding of `_evaluate_cluster_period_by_period`: period-by-period
evaluation of all members in internal order. -/
def evalCluster (formulas : ℕ → Option FX) (order : List ℕ) (P : ℕ) (ctx : Ctx) : Ctx :=
  (List.range P).foldl (fun c t => clusterStep formulas order t c) (clusterInit order P ctx)

/-! ### Dependency extraction (`_extract_deps` / `_extract_shift_targets`,
engine.py lines 793-824)

The `_mRefMap` rewriting step is the identity for documents without module
aliases, which is the document class modelled here (no `modules`, empty
`_mRefMap`).  Python dependency sets are unordered; the list encodings
below fix a traversal order, and every property proved is order-free
(membership, counts over deduplicated lists). -/

/-- All `R`-references of a simple expression. -/
def SX.rrefs : SX → List ℕ
  | .num _ => []
  | .iref _ => []
  | .bad => []
  | .rref i => [i]
  | .add a b => a.rrefs ++ b.rrefs
  | .sub a b => a.rrefs ++ b.rrefs
  | .mul a b => a.rrefs ++ b.rrefs
  | .ifE c t f => c.rrefs ++ t.rrefs ++ f.rrefs

/-- Hard dependencies: `R`-references outside `SHIFT`/`PREVSUM`/`PREVVAL`
arguments (`_extract_deps` removes those spans before collecting `R\d+`;
references inside `CUMSUM`/`CUMSUM_Y`/`CUMPROD`/`CUMPROD_Y`/`COUNT` remain
and are hard). -/
def FX.hardDeps : FX → List ℕ
  | .num _ => []
  | .iref _ => []
  | .bad => []
  | .rref i => [i]
  | .add a b => a.hardDeps ++ b.hardDeps
  | .sub a b => a.hardDeps ++ b.hardDeps
  | .mul a b => a.hardDeps ++ b.hardDeps
  | .ifE c t f => c.hardDeps ++ t.hardDeps ++ f.hardDeps
  | .shift _ _ => []
  | .prevsum _ => []
  | .prevval _ => []
  | .cumsum e => e.rrefs
  | .cumsumY e => e.rrefs
  | .cumprod e => e.rrefs
  | .cumprodY e => e.rrefs
  | .count e => e.rrefs

/-- Soft (lag) targets: `R`-references inside `SHIFT`/`PREVSUM`/`PREVVAL`
arguments (`_extract_shift_targets`). -/
def FX.softTargets : FX → List ℕ
  | .num _ => []
  | .iref _ => []
  | .bad => []
  | .rref _ => []
  | .add a b => a.softTargets ++ b.softTargets
  | .sub a b => a.softTargets ++ b.softTargets
  | .mul a b => a.softTargets ++ b.softTargets
  | .ifE c t f => c.softTargets ++ t.softTargets ++ f.softTargets
  | .shift e _ => e.rrefs
  | .prevsum e => e.rrefs
  | .prevval e => e.rrefs
  | .cumsum _ => []
  | .cumsumY _ => []
  | .cumprod _ => []
  | .cumprodY _ => []
  | .count _ => []

/-! ### Scheduling (`_evaluate_all`, engine.py lines 1430-1522) -/

/-- A `calculations` entry. -/
structure CalcDef where
  id : ℕ
  formula : FX
deriving DecidableEq, Repr

/-- Graph node list: `R<id>` for each calculation, dict key order
(first occurrence wins for position, as in Python dicts). -/
def calcNodes (calcs : List CalcDef) : List ℕ :=
  dedupFirst (calcs.map (fun c => c.id))

/-- `calc_lookup` / `calc_by_id`: for duplicate ids the last entry wins
(dict overwrite). -/
def calcLookup (calcs : List CalcDef) (i : ℕ) : Option FX :=
  (calcs.reverse.find? (fun c => c.id = i)).map (fun c => c.formula)

/-- The hard-dependency graph after filtering to existing nodes
(engine.py lines 1440-1446 and 1464-1467). -/
def graph0 (calcs : List CalcDef) : ℕ → List ℕ :=
  fun i =>
    match calcLookup calcs i with
    | some f => (dedupFirst f.hardDeps).filter (fun d => decide (d ∈ calcNodes calcs))
    | none => []

/-- Breadth-first search worker of `is_reachable`
(`_detect_shift_cycles`, engine.py lines 880-893): pops the queue front,
answers `true` as soon as `target` appears among a popped node's
dependencies, and enqueues unvisited in-graph dependencies.  Each node is
enqueued at most once (the `visited` check), so `nodes.length + 1` fuel
exceeds the Python loop's iteration count. -/
def bfsReach (g : ℕ → List ℕ) (nodes : List ℕ) (target : ℕ) :
    ℕ → List ℕ → List ℕ → Bool
  | 0, _, _ => false
  | _ + 1, _, [] => false
  | fuel + 1, visited, q :: qs =>
      let deps := g q
      if target ∈ deps then true
      else
        let newOnes := deps.filter (fun d => decide (d ∉ visited) && decide (d ∈ nodes))
        bfsReach g nodes target fuel (visited ++ newOnes) (qs ++ newOnes)

/-- Embedding of `is_reachable`. -/
def isReachable (g : ℕ → List ℕ) (nodes : List ℕ) (start target : ℕ) : Bool :=
  start = target || bfsReach g nodes target (nodes.length + 1) [start] [start]

/-- The seed cycle sets of `_detect_shift_cycles` (engine.py lines
895-910): for each calculation and each of its soft targets reachable back
to it in the hard graph, the pair plus every node on a hard path between
them. -/
def detectCycleSets (g : ℕ → List ℕ) (nodes : List ℕ) (calcs : List CalcDef) :
    List (List ℕ) :=
  calcs.foldl (fun acc cd =>
    let node := cd.id
    let targets := dedupFirst cd.formula.softTargets
    acc ++ targets.filterMap (fun tgt =>
      if tgt ∈ nodes ∧ isReachable g nodes tgt node then
        some (dedupFirst ([node, tgt] ++ nodes.filter (fun n =>
          isReachable g nodes tgt n && isReachable g nodes n node)))
      else none)) []

/-- Overlap merging of `_detect_shift_cycles` (engine.py lines 916-926):
each seed set is unioned into the first already-merged set it overlaps,
else appended. -/
def mergeSets (sets : List (List ℕ)) : List (List ℕ) :=
  sets.foldl (fun merged ns =>
    match merged.findIdx? (fun m => ns.any (fun x => decide (x ∈ m))) with
    | some i => merged.set i (dedupFirst (merged.getD i [] ++ ns))
    | none => merged ++ [ns]) []

/-- `node_to_cluster` (engine.py lines 929-932): the loop over the merged
sets assigns each node its cluster id, later assignments overwriting
earlier ones. -/
def nodeToCluster (merged : List (List ℕ)) (n : ℕ) : Option ℕ :=
  ((List.range merged.length).filter (fun cid => decide (n ∈ merged.getD cid []))).getLast?

/-- Same-cluster test used by the soft-edge upgrade (engine.py lines
1480-1481). -/
def sameClusterB (n2c : ℕ → Option ℕ) (a b : ℕ) : Bool :=
  match n2c a, n2c b with
  | some x, some y => x = y
  | _, _ => false

/-- Soft-edge upgrade (engine.py lines 1472-1482): every soft target not in
the same cluster becomes an ordinary graph edge (set insertion — only
genuinely new dependencies are appended). -/
def graph1 (calcs : List CalcDef) (nodes : List ℕ) (g0 : ℕ → List ℕ)
    (n2c : ℕ → Option ℕ) : ℕ → List ℕ :=
  fun i =>
    let base := g0 i
    let adds := (calcs.filter (fun c => c.id = i)).flatMap
      (fun c => dedupFirst c.formula.softTargets)
    let adds' := adds.filter (fun tgt =>
      decide (tgt ∈ nodes) && decide (tgt ≠ i) && !(sameClusterB n2c i tgt))
    base ++ (dedupFirst adds').filter (fun t => decide (t ∉ base))

/-- Cluster-atomicity augmentation (engine.py lines 1484-1495): a
non-cluster node depending on any cluster member depends on every member
of that cluster. -/
def graph2 (merged : List (List ℕ)) (n2c : ℕ → Option ℕ) (g1 : ℕ → List ℕ) :
    ℕ → List ℕ :=
  fun i =>
    if (n2c i).isSome then g1 i
    else
      let aug := (g1 i).flatMap (fun dep =>
        match n2c dep with
        | some cid => merged.getD cid []
        | none => [])
      g1 i ++ (dedupFirst aug).filter (fun m => decide (m ∉ g1 i))

/-! ### Kahn's algorithm (`_topological_sort`, engine.py lines 838-865) -/

/-- Reverse adjacency: `reverse_adj[d]` lists, in graph-key order, the
nodes having `d` among their dependencies. -/
def radjOf (g : ℕ → List ℕ) (nodes : List ℕ) (d : ℕ) : List ℕ :=
  nodes.filter (fun n => decide (d ∈ g n))

/-- The Kahn worker: pop the queue front, append it to the output,
decrement each dependent's in-degree and enqueue those that reach zero.
One iteration per pop; pops never exceed enqueues, and every enqueue is
either initial (≤ `|nodes|`) or caused by a distinct decrement
(≤ `Σ |g n|`), so the fuel passed by `kahnSort` exceeds the Python
`while` loop's iteration count and the recursion always ends with an
empty queue, exactly as the Python loop does. -/
def kahnRelax (st : (ℕ → ℤ) × List ℕ) (d : ℕ) : (ℕ → ℤ) × List ℕ :=
  let v := st.1 d - 1
  (fun x => if x = d then v else st.1 x,
   if v = 0 then st.2 ++ [d] else st.2)

/-- The Kahn worker loop: pop, relax all dependents, recurse. -/
def kahnGo (radj : ℕ → List ℕ) : ℕ → (ℕ → ℤ) → List ℕ → List ℕ → List ℕ
  | 0, _, _, acc => acc
  | _ + 1, _, [], acc => acc
  | fuel + 1, indeg, q :: qs, acc =>
      let st := (radj q).foldl kahnRelax (indeg, [])
      kahnGo radj fuel st.1 (qs ++ st.2) (acc ++ [q])

/-- Embedding of `_topological_sort`: the properly sorted nodes followed by
the residual (cyclic) nodes in graph-key order.  The initial in-degree of a
node counts its dependencies that are graph keys. -/
def kahnSort (g : ℕ → List ℕ) (nodes : List ℕ) : List ℕ × List ℕ :=
  let indeg0 : ℕ → ℤ := fun n => (((g n).filter (fun d => decide (d ∈ nodes))).length : ℤ)
  let q0 := nodes.filter (fun n => decide (indeg0 n = 0))
  let fuel := nodes.length + (nodes.map (fun n => (g n).length)).sum + 1
  let sorted := kahnGo (radjOf g nodes) fuel indeg0 q0 []
  (sorted, nodes.filter (fun n => decide (n ∉ sorted)))

/-! ### The scheduled run (`_evaluate_all`, engine.py lines 1497-1563) -/

/-- Everything `_evaluate_all` computes before evaluating: node list, final
graph, cluster data, and the topological order. -/
structure Schedule where
  nodes : List ℕ
  graph : ℕ → List ℕ
  n2c : ℕ → Option ℕ
  clusters : List (List ℕ)
  proper : List ℕ
  sortedNodes : List ℕ

/-- Build the schedule for a calculations document. -/
def scheduleOf (calcs : List CalcDef) : Schedule :=
  let nodes := calcNodes calcs
  let g0 := graph0 calcs
  let merged := mergeSets (detectCycleSets g0 nodes calcs)
  let n2c := nodeToCluster merged
  let g2 := graph2 merged n2c (graph1 calcs nodes g0 n2c)
  let ks := kahnSort g2 nodes
  { nodes := nodes, graph := g2, n2c := n2c, clusters := merged,
    proper := ks.1, sortedNodes := ks.1 ++ ks.2 }

/-- A cluster's internal order (engine.py lines 1501-1507): its members
sorted by topological position — equivalently the topological order
filtered to the members. -/
def internalOrder (s : Schedule) (cid : ℕ) : List ℕ :=
  s.sortedNodes.filter (fun n => decide (n ∈ s.clusters.getD cid []))

/-- `trigger_pos` (engine.py lines 1516-1522): position `p` triggers
cluster `cid` iff `p` is the last topological position whose node maps to
`cid`. -/
def triggerAt (s : Schedule) (p : ℕ) : Option ℕ :=
  match s.n2c (s.sortedNodes.getD p 0) with
  | some cid =>
      if (List.range s.sortedNodes.length).all (fun p' =>
          decide (p' ≤ p) || decide (s.n2c (s.sortedNodes.getD p' 0) ≠ some cid))
      then some cid else none
  | none => none

/-- The observable outcome of `run()`: the `results` dict as an
association list in write order, the final context, and `engine.errors`.
The `except` branch of `_evaluate_all` (lines 1560-1563) is unreachable
because `evaluate_formula` catches every formula-level exception
internally and returns an array, so `errors` never gains an entry from a
bad formula. -/
structure EngineOut where
  results : List (ℕ × List ℚ)
  ctx : Ctx
  errors : List (ℕ × String)

/-- The evaluation loop of `_evaluate_all` (engine.py lines 1514-1563) over
the scheduled order: a cluster member is evaluated only at its cluster's
trigger position (all members written then, in internal order); any other
node is evaluated by `evaluate_formula` and written. -/
def evalStep (calcs : List CalcDef) (s : Schedule) (tl : Timeline)
    (st : Ctx × List (ℕ × List ℚ) × List ℕ) (p : ℕ) :
    Ctx × List (ℕ × List ℚ) × List ℕ :=
  let node := s.sortedNodes.getD p 0
  match s.n2c node with
  | some _ =>
      match triggerAt s p with
      | some tcid =>
          if tcid ∈ st.2.2 then st
          else
            let ord := internalOrder s tcid
            let ctx' := evalCluster (calcLookup calcs) ord tl.periods st.1
            let newRes := ord.map (fun rid => (rid, (ctx' (.R rid)).getD []))
            (ctx', st.2.1 ++ newRes, st.2.2 ++ [tcid])
      | none => st
  | none =>
      match calcLookup calcs node with
      | some f =>
          let values := f.evaluate st.1 tl
          (ctxInsert st.1 (.R node) values, st.2.1 ++ [(node, values)], st.2.2)
      | none => st

/-- The full loop: fold the per-position step over the scheduled order. -/
def evalFold (calcs : List CalcDef) (s : Schedule) (tl : Timeline) (ctx0 : Ctx) :
    EngineOut :=
  let fin := (List.range s.sortedNodes.length).foldl (evalStep calcs s tl)
    (ctx0, ([] : List (ℕ × List ℚ)), ([] : List ℕ))
  { results := fin.2.1, ctx := fin.1, errors := [] }

/-- Embedding of `GlassboxEngine.run` (engine.py lines 1390-1398) from a
given pre-run context state (`self.context` after construction and any
`override_input` calls): build the reference map, then evaluate all
calculations in scheduled order. -/
def runEngine (doc : InputsDoc) (calcs : List CalcDef) (ctx0 : Ctx) : EngineOut :=
  let tl := buildTimeline doc.config
  evalFold calcs (scheduleOf calcs) tl (buildReferenceMap ctx0 doc tl)

/-- Embedding of `GlassboxEngine.override_input` for an array value
(engine.py lines 1377-1384): unconditionally binds the reference in the
context. -/
def overrideInput (ctx : Ctx) (k : RefKey) (arr : List ℚ) : Ctx :=
  ctxInsert ctx k arr

/-- `results[ref]` lookup (dict: last write wins; each node is written once
on the documents considered). -/
def resLookup (res : List (ℕ × List ℚ)) (i : ℕ) : Option (List ℚ) :=
  assocLast res i

/-! ### Iterative debt sizing (`_calculate_iterative_debt_sizing`,
engine.py lines 1097-1230) -/

/-- A module input value: a JSON number, a reference-name string, or some
other (unparseable) string. -/
inductive MVal where
  | num (q : ℚ)
  | ref (k : RefKey)
  | strOther (s : String)
deriving DecidableEq, Repr

/-- Embedding of `_resolve_module_input` (engine.py lines 1070-1086):
numbers pass through; a reference string resolves to the first non-zero
entry of its context array (else its first entry, else the default); an
unknown or unparseable string yields the default (a numeric string would
be parsed — model it as `num`). -/
def resolveModuleInput (v : MVal) (ctx : Ctx) (dflt : ℚ) : ℚ :=
  match v with
  | .num q => q
  | .ref k =>
      match ctx k with
      | some arr =>
          match arr.find? (fun x => decide (x ≠ 0)) with
          | some x => x
          | none => if 0 < arr.length then arr.getD 0 0 else dflt
      | none => dflt
  | .strOther _ => dflt

/-- Embedding of `_resolve_module_input_array` (engine.py lines 1089-1094). -/
def resolveModuleInputArray (v : MVal) (ctx : Ctx) (n : ℕ) (dflt : ℚ) : List ℚ :=
  match v with
  | .ref k =>
      match ctx k with
      | some arr => arr
      | none => List.replicate n (resolveModuleInput v ctx dflt)
  | _ => List.replicate n (resolveModuleInput v ctx dflt)

/-- Python `int()` on a float value: truncation toward zero. -/
def pyIntTrunc (q : ℚ) : ℤ :=
  if 0 ≤ q then q.floor else -((-q).floor)

/-- Embedding of `_is_period_end` (engine.py lines 1097-1105). -/
def isPeriodEnd (i : ℕ) (debtPeriod : String) (tl : Timeline) : Bool :=
  if debtPeriod = "M" then true
  else
    let m : ℤ := if i < tl.periods then tl.month.getD i 0 else ((i % 12 : ℕ) + 1 : ℤ)
    if debtPeriod = "Q" then decide (m = 3 ∨ m = 6 ∨ m = 9 ∨ m = 12)
    else if debtPeriod = "Y" then decide (m = 12)
    else true

/-- The `inputs` record of the iterative debt-sizing module, with the
`dict.get` defaults of the source baked in. -/
structure DebtSizingInputs where
  contractedCfadsRef : Option RefKey := none
  contractedDSCR : MVal := .num (27/20)
  merchantCfadsRef : Option RefKey := none
  merchantDSCR : MVal := .num (3/2)
  cfadsRef : Option RefKey := none
  targetDSCR : MVal := .num (7/5)
  debtFlagRef : Option RefKey := none
  totalFundingRef : Option MVal := none
  maxGearingPct : MVal := .num 65
  interestRatePct : MVal := .num 5
  tenorYears : MVal := .num 18
  debtPeriod : String := "Q"
  tolerance : MVal := .num (1/10)
  maxIterations : MVal := .num 50
deriving Repr

/-- Amortization-simulation state of one binary-search test
(engine.py lines 1184-1222). -/
structure SimState where
  balance : ℚ
  accInt : ℚ
  accCap : ℚ
  accCfads : ℚ
  ok : Bool
deriving Repr

/-- Embedding of `_calculate_iterative_debt_sizing` (engine.py lines
1108-1230): per-period debt-service capacity, debt window, then binary
search on the principal with the schedule-feasibility simulation (the
`princ < min_princ * 0.9` slack marks a test infeasible; the final period
always pays off the remaining balance). -/
def calcIterativeDebtSizing (inputs : DebtSizingInputs) (length : ℕ) (ctx : Ctx)
    (tl : Timeline) : List (String × List ℚ) :=
  let maxGearingPct := resolveModuleInput inputs.maxGearingPct ctx 65
  let interestRateArray := resolveModuleInputArray inputs.interestRatePct ctx length 0
  let tenorYears := resolveModuleInput inputs.tenorYears ctx 18
  let debtPeriod := inputs.debtPeriod
  let tolerance := resolveModuleInput inputs.tolerance ctx (1/10)
  let maxIterations := (pyIntTrunc (resolveModuleInput inputs.maxIterations ctx 50)).toNat
  let parsedContractedDSCR := resolveModuleInput inputs.contractedDSCR ctx 0
  let parsedMerchantDSCR := resolveModuleInput inputs.merchantDSCR ctx 0
  let parsedTargetDSCR := resolveModuleInput inputs.targetDSCR ctx 0
  let contractedCfads : List ℚ :=
    match inputs.contractedCfadsRef with
    | some k => (ctx k).getD (List.replicate length 0)
    | none => List.replicate length 0
  let merchantCfads : List ℚ :=
    match inputs.merchantCfadsRef with
    | some k => (ctx k).getD (List.replicate length 0)
    | none => List.replicate length 0
  let legacyCfads : Option (List ℚ) :=
    match inputs.cfadsRef with
    | some k => ctx k
    | none => none
  let useNew := inputs.contractedCfadsRef.isSome || inputs.merchantCfadsRef.isSome
  let dsCapacity := (List.range length).map (fun i =>
    if useNew then
      (if 0 < parsedContractedDSCR then contractedCfads.getD i 0 / parsedContractedDSCR else 0) +
      (if 0 < parsedMerchantDSCR then merchantCfads.getD i 0 / parsedMerchantDSCR else 0)
    else
      match legacyCfads with
      | some lc =>
          if i < lc.length then
            (if 0 < parsedTargetDSCR then lc.getD i 0 / parsedTargetDSCR else 0)
          else 0
      | none => 0)
  let totalCfads := (List.range length).map (fun i =>
    if useNew then contractedCfads.getD i 0 + merchantCfads.getD i 0
    else
      match legacyCfads with
      | some lc => if i < lc.length then lc.getD i 0 else 0
      | none => 0)
  let debtFlag : List ℚ :=
    match inputs.debtFlagRef with
    | some k => (ctx k).getD (List.replicate length 0)
    | none => List.replicate length 0
  match (List.range length).find? (fun i => decide (debtFlag.getD i 0 = 1)) with
  | none => [("sized_debt", List.replicate length 0)]
  | some debtStart =>
      let totalFunding : ℚ :=
        match inputs.totalFundingRef with
        | some (.ref k) =>
            match ctx k with
            | some fa => if 0 < debtStart then fa.getD (debtStart - 1) 0 else fa.getD 0 0
            | none => 0
        | some (.num q) => q
        | some (.strOther _) => 0
        | none => 0
      let debtFlagEnd :=
        match ((List.range length).filter (fun i =>
          decide (debtStart ≤ i) && decide (debtFlag.getD i 0 = 1))).getLast? with
        | some i => i
        | none => debtStart
      let tenorMonths := (pyIntTrunc (tenorYears * 12)).toNat
      let debtEndZ : ℤ :=
        min (min ((debtStart : ℤ) + tenorMonths - 1) (debtFlagEnd : ℤ)) ((length : ℤ) - 1)
      let debtEnd := debtEndZ.toNat
      let months : List ℕ :=
        if (debtStart : ℤ) ≤ debtEndZ then List.range' debtStart (debtEnd + 1 - debtStart)
        else []
      let simulate : ℚ → Bool := fun test =>
        let fin := months.foldl (fun (st : SimState) i =>
          let accInt := st.accInt + st.balance * (interestRateArray.getD i 0 / 100 / 12)
          let accCap := st.accCap + dsCapacity.getD i 0
          let accCf := st.accCfads + totalCfads.getD i 0
          if isPeriodEnd i debtPeriod tl || decide (i = debtEnd) then
            let remaining := (List.range' i (debtEnd + 1 - i)).countP (fun j =>
              isPeriodEnd j debtPeriod tl || decide (j = debtEnd))
            let minPrinc := if 0 < remaining then st.balance / remaining else st.balance
            let maxPrinc := max 0 (accCap - accInt)
            let pOk : ℚ × Bool :=
              if i = debtEnd then (st.balance, st.ok)
              else if minPrinc ≤ maxPrinc then (minPrinc, st.ok)
              else (maxPrinc, if maxPrinc < minPrinc * (9/10) then false else st.ok)
            let princ := min pOk.1 st.balance
            ⟨st.balance - princ, 0, 0, 0, pOk.2⟩
          else ⟨st.balance, accInt, accCap, accCf, st.ok⟩)
          ⟨test, 0, 0, 0, true⟩
        decide (fin.balance < 1/1000) && fin.ok
      let rec bsearch : ℕ → ℚ → ℚ → ℚ → ℚ
        | 0, _, _, best => best
        | n + 1, lower, upper, best =>
            if upper - lower ≤ tolerance then best
            else
              let test := (lower + upper) / 2
              if simulate test then bsearch n test upper test
              else bsearch n lower test best
      let best := bsearch maxIterations 0 (totalFunding * (maxGearingPct / 100)) 0
      [("sized_debt", List.replicate length best)]

/-! ### The debt-sizing scenario of the specification (claim C2) -/

/-- The 12-period monthly timeline starting January 2025. -/
def timeline12 : Timeline := buildTimeline ⟨2025, 1, 2025, 12⟩

/-- Context for the debt-sizing scenario: contracted CFADS of 100 every
period and a debt-active flag of 1 every period. -/
def debtCtx : Ctx :=
  ctxInsert (ctxInsert Ctx.empty (.R 50) (List.replicate 12 100)) (.R 51)
    (List.replicate 12 1)

/-- The claim's module inputs: contracted DSCR 1.25, merchant CFADS 0,
tenor 1 year, interest 0 %, monthly payments, max gearing 100 %, total
funding 10000, default tolerance 0.1 and iteration cap 50. -/
def debtInputs : DebtSizingInputs :=
  { contractedCfadsRef := some (.R 50), contractedDSCR := .num (5/4),
    debtFlagRef := some (.R 51), totalFundingRef := some (.num 10000),
    maxGearingPct := .num 100, interestRatePct := .num 0,
    tenorYears := .num 1, debtPeriod := "M" }

set_option maxRecDepth 8000 in
/-- Claim C2, counterexample: on the claim's scenario the solver emits the
constant array `8009375/8192 ≈ 977.71`, which is not within the tolerance
0.1 of `1200/1.25 = 960` as the claim states.  The cause: a test principal
is only marked infeasible when a period's capacity-limited payment falls
below 0.9 of the scheduled payment, and the final period repays the whole
balance, so principals up to `8800/9 ≈ 977.78` are accepted as feasible. -/
theorem debtSizing_not_within_tolerance_of_960 :
    calcIterativeDebtSizing debtInputs 12 debtCtx timeline12 =
      [("sized_debt", List.replicate 12 (8009375/8192))] ∧
    ¬ |(8009375/8192 : ℚ) - 1200 / (5/4)| ≤ 1/10 := by
  constructor
  · decide
  · rw [abs_of_pos (by norm_num : (0:ℚ) < 8009375/8192 - 1200 / (5/4))]
    norm_num

set_option maxRecDepth 8000 in
/-- Claim C2, amended: the binary search converges so that the emitted
`sized_debt` array is constant — equal to `8009375/8192 ≈ 977.71` — and
within the tolerance 0.1 of `8800/9 ≈ 977.78`, the largest principal the
0.9-slack feasibility rule accepts (not of `1200/1.25 = 960`). -/
theorem debtSizing_converges_to_slack_limit :
    calcIterativeDebtSizing debtInputs 12 debtCtx timeline12 =
      [("sized_debt", List.replicate 12 (8009375/8192))] ∧
    |(8009375/8192 : ℚ) - 8800/9| ≤ 1/10 := by
  constructor
  · decide
  · rw [abs_of_neg (by norm_num : (8009375/8192 : ℚ) - 8800/9 < 0)]
    norm_num

/-! ### Concrete scenario documents -/

/-- An inputs document with a 12-period monthly timeline starting
(2025, 1) and no key periods, indices or input groups. -/
def inputsEmpty12 : InputsDoc := { config := ⟨2025, 1, 2025, 12⟩ }

/-- The specification's soft-cycle scenario:
`R10 = R11 + 1`, `R11 = SHIFT(R10, 1)`. -/
def softCycleCalcs : List CalcDef :=
  [⟨10, .add (.rref 11) (.num 1)⟩, ⟨11, .shift (.rref 10) 1⟩]

/-- A two-node soft-soft cycle: `R1 = SHIFT(R2, 1)`,
`R2 = SHIFT(R1, 1) + 1`.  Neither soft edge closes through a hard path, so
no cluster is detected; both upgraded soft edges form a hard cycle and both
nodes become residual. -/
def softSoftCalcs : List CalcDef :=
  [⟨1, .shift (.rref 2) 1⟩, ⟨2, .add (.shift (.rref 1) 1) (.num 1)⟩]

/-- A hard two-cycle: `R1 = R2`, `R2 = R1`. -/
def hardCycleCalcs : List CalcDef := [⟨1, .rref 2⟩, ⟨2, .rref 1⟩]

/-- A document with a bad (unparseable) formula for `R1` and a downstream
consumer `R2 = R1 + 1`. -/
def badCalcs : List CalcDef := [⟨1, .bad⟩, ⟨2, .add (.rref 1) (.num 1)⟩]

/-- A document whose only formula references the unknown `R99`. -/
def unknownRefCalcs : List CalcDef := [⟨1, .rref 99⟩]

/-- A document whose only formula is the reference `I1`. -/
def i1Calcs : List CalcDef := [⟨1, .iref (.I 1)⟩]

/-- Position of a node's write in the results list (first occurrence). -/
def writeIdx (res : List (ℕ × List ℚ)) (i : ℕ) : Option ℕ :=
  (res.map Prod.fst).indexOf? i

set_option maxRecDepth 10000 in
/-- Claim C1, counterexample: the claim's general law — for a formula
`R<i> = SHIFT(R<j>, 1)`, `R<i>[t] == R<j>[t-1]` for `t ≥ 1` — fails on the
soft-soft cycle document: no cluster is detected (neither soft edge closes
through a hard path), both nodes end up residual and are evaluated in
document order, so `R1` is evaluated while `R2` is still absent from the
context and becomes all zeros, while `R2 = SHIFT(R1,1) + 1` becomes all
ones: `R1[1] = 0 ≠ 1 = R2[0]`, although `R2` transitively depends on
`R1`. -/
theorem softCycle_claim_counterexample :
    calcLookup softSoftCalcs 1 = some (.shift (.rref 2) 1) ∧
    (resLookup (runEngine inputsEmpty12 softSoftCalcs Ctx.empty).results 1).map
      (fun l => l.getD 1 0) = some 0 ∧
    (resLookup (runEngine inputsEmpty12 softSoftCalcs Ctx.empty).results 2).map
      (fun l => l.getD 0 0) = some 1 ∧
    (0 : ℚ) ≠ 1 := by decide

set_option maxRecDepth 10000 in
/-- Claim C3, counterexample: on the bad-formula document, `run()` indeed
does not raise, the offending node's array is all zeros and the downstream
node still evaluates (`R2 = R1 + 1 = 1`), but — against the claim —
`engine.errors` records no entry at all: `_safe_eval` and
`_try_numpy_eval` swallow the exception inside `evaluate_formula`, so the
`except` branch of `_evaluate_all` that would fill `errors` never runs. -/
theorem badFormula_errors_empty :
    (runEngine inputsEmpty12 badCalcs Ctx.empty).errors = [] ∧
    resLookup (runEngine inputsEmpty12 badCalcs Ctx.empty).results 1 =
      some (List.replicate 12 0) ∧
    resLookup (runEngine inputsEmpty12 badCalcs Ctx.empty).results 2 =
      some (List.replicate 12 1) := by decide

set_option maxRecDepth 10000 in
/-- Claim C7, counterexample: on the hard two-cycle document, `R1` has the
hard dependency `R2`, neither node belongs to a soft-cycle cluster, yet
`R2`'s result is written after `R1`'s (both are residual and evaluated in
document order), contradicting the claim's strict write order. -/
theorem topo_hard_cycle_counterexample :
    calcLookup hardCycleCalcs 1 = some (.rref 2) ∧
    FX.hardDeps (.rref 2) = [2] ∧
    2 ∈ (scheduleOf hardCycleCalcs).nodes ∧
    (scheduleOf hardCycleCalcs).n2c 1 = none ∧
    (scheduleOf hardCycleCalcs).n2c 2 = none ∧
    writeIdx (runEngine inputsEmpty12 hardCycleCalcs Ctx.empty).results 1 = some 0 ∧
    writeIdx (runEngine inputsEmpty12 hardCycleCalcs Ctx.empty).results 2 = some 1 := by
  decide

set_option maxRecDepth 10000 in
/-- Claim C8, counterexample: `override_input` on the unknown reference
`R99` is not ignored — `R99` is not produced by the reference-map builder,
the override stays bound in the context, and the subsequent `run()`
resolves `R1 = R99` to the overridden value (5 everywhere) instead of the
zeros of the base run, so the observable state and results differ. -/
theorem override_unknown_ref_changes_results :
    (refMapList inputsEmpty12 (buildTimeline inputsEmpty12.config)).all
      (fun p => p.1 ≠ RefKey.R 99) ∧
    (runEngine inputsEmpty12 unknownRefCalcs Ctx.empty).results =
      [(1, List.replicate 12 0)] ∧
    (runEngine inputsEmpty12 unknownRefCalcs
      (overrideInput Ctx.empty (.R 99) (List.replicate 12 5))).results =
      [(1, List.replicate 12 5)] := by decide

set_option maxRecDepth 10000 in
/-- Claim C9, counterexample: with an empty `indices` list the reference
map contains no `I1` at all, and a formula consisting of the bare
reference `I1` evaluates to the all-zeros array (an unresolved non-`R`
reference makes the per-period `eval` fail and `_safe_eval` yields `0.0`),
not the all-ones array the claim asserts. -/
theorem I1_missing_counterexample :
    buildReferenceMap Ctx.empty inputsEmpty12 timeline12 (.I 1) = none ∧
    resLookup (runEngine inputsEmpty12 i1Calcs Ctx.empty).results 1 =
      some (List.replicate 12 0) ∧
    List.replicate 12 (0 : ℚ) ≠ List.replicate 12 1 := by decide

/-- Claim C5, counterexample: the claim states that a non-finite condition
(here `inf`) selects the `f` branch of `IF(c, t, f)`.  In the code, `_IF`
uses Python truthiness (`t if cond else f`) and `_np_IF` uses `np.where`;
both treat `inf` (and `nan`) as truthy/non-zero, so both select the `t`
branch (`finite 1`), not the `f` branch (`finite 2`). -/
theorem IF_nonfinite_selects_then :
    scalarIF PyFloat.inf (PyFloat.finite 1) (PyFloat.finite 2) = PyFloat.finite 1 ∧
    npIF PyFloat.nan (PyFloat.finite 1) (PyFloat.finite 2) = PyFloat.finite 1 ∧
    PyFloat.finite 1 ≠ PyFloat.finite 2 := by
  refine ⟨rfl, rfl, ?_⟩
  decide

/-- Claim C5, amended: `IF(c, t, f)` yields `t` exactly when `c` is truthy as
a Python float, i.e. whenever `c ≠ 0.0` — with `nan` and the infinities
counting as non-zero; there is no finiteness check.  This holds in both the
scalar path (`_IF`) and the vectorized path (`_np_IF`). -/
theorem IF_truthiness (c t f : PyFloat) :
    scalarIF c t f = (if c ≠ PyFloat.finite 0 then t else f) ∧
    npIF c t f = (if c ≠ PyFloat.finite 0 then t else f) := by
  have h : pyTruthy c = (decide (c ≠ PyFloat.finite 0)) := by
    cases c with
    | finite q =>
        by_cases hq : q = 0 <;> simp [pyTruthy, hq]
    | inf => simp [pyTruthy]
    | negInf => simp [pyTruthy]
    | nan => simp [pyTruthy]
  constructor <;> · simp only [scalarIF, npIF]; rw [h]; by_cases hc : c = PyFloat.finite 0 <;>
    simp [hc]

/-- Claim C6, counterexample: the claim states `ROUND(0.5) == 1` and
`ROUND(-0.5) == -1` (half-away-from-zero).  The code's `_ROUND` uses
Python's builtin `round` and `_np_ROUND` uses `np.round`, both of which
round half-to-even, so `ROUND(0.5) == 0` and `ROUND(-0.5) == 0`. -/
theorem ROUND_half_counterexample :
    scalarROUND (1/2) 0 = 0 ∧ ¬ scalarROUND (1/2) 0 = 1 ∧
    scalarROUND (-(1/2)) 0 = 0 ∧ ¬ scalarROUND (-(1/2)) 0 = -1 ∧
    npROUND (1/2) 0 = 0 ∧ npROUND (-(1/2)) 0 = 0 := by
  refine ⟨by decide, by decide, by decide, by decide, by decide, by decide⟩

/-- Claim C6, amended: `ROUND(x, n)` (default `n = 0`) scales by `10^n` and
rounds half-to-even (banker's rounding), in both the scalar and the
vectorized paths: the rounded value is within half of the true value, ties
go to the even integer, and in particular `ROUND(0.5) == 0`,
`ROUND(-0.5) == 0`, `ROUND(1.5) == 2`. -/
theorem ROUND_half_even :
    (∀ x : ℚ, |x - pyRound x| ≤ 1/2 ∧ (|x - (pyRound x : ℚ)| = 1/2 → 2 ∣ pyRound x)) ∧
    scalarROUND (1/2) 0 = 0 ∧ scalarROUND (-(1/2)) 0 = 0 ∧ scalarROUND (3/2) 0 = 2 ∧
    npROUND (1/2) 0 = 0 ∧ npROUND (-(1/2)) 0 = 0 ∧ npROUND (3/2) 0 = 2 := by
  refine ⟨fun x => ⟨pyRound_le_half x, pyRound_even_of_tie x⟩, ?_, ?_, ?_, ?_, ?_, ?_⟩ <;>
    decide

/-- Claim C6, witness: the half-to-even theorem applied at the concrete tie
point `x = 1/2`, discharging the tie hypothesis there. -/
theorem ROUND_half_even_witness :
    |(1/2 : ℚ) - (pyRound (1/2) : ℚ)| = 1/2 ∧ 2 ∣ pyRound (1/2) ∧
    scalarROUND (1/2) 0 = 0 := by
  have h : |(1/2 : ℚ) - (pyRound (1/2) : ℚ)| = 1/2 := by
    rw [show pyRound (1/2) = 0 by decide]
    norm_num
  exact ⟨h, (ROUND_half_even.1 (1/2)).2 h, ROUND_half_even.2.1⟩

/-! ### Context-update lemmas and claims C10, C8, C9 -/

theorem ctxInsert_self (ctx : Ctx) (k : RefKey) (v : List ℚ) :
    ctxInsert ctx k v k = some v := by
  unfold ctxInsert
  simp

theorem ctxInsert_other (ctx : Ctx) (k k' : RefKey) (v : List ℚ) (h : k' ≠ k) :
    ctxInsert ctx k v k' = ctx k' := by
  unfold ctxInsert
  simp [h]

theorem ctxInsert_shadow (ctx : Ctx) (k : RefKey) (v v' : List ℚ) :
    ctxInsert (ctxInsert ctx k v) k v' = ctxInsert ctx k v' := by
  funext k'
  unfold ctxInsert
  by_cases h : k' = k <;> simp [h]

theorem ctxInsert_comm (ctx : Ctx) (a b : RefKey) (va vb : List ℚ) (h : a ≠ b) :
    ctxInsert (ctxInsert ctx a va) b vb = ctxInsert (ctxInsert ctx b vb) a va := by
  funext k'
  unfold ctxInsert
  by_cases hb : k' = b
  · have ha : ¬ k' = a := fun hh => h (by rw [← hh, hb])
    rw [if_pos hb, if_neg ha, if_pos hb]
  · by_cases ha : k' = a
    · rw [if_neg hb, if_pos ha, if_pos ha]
    · rw [if_neg hb, if_neg ha, if_neg ha, if_neg hb]

theorem ctxUpdate_insert_mem (ctx : Ctx) (k : RefKey) (v : List ℚ)
    (l : List (RefKey × List ℚ)) (h : k ∈ l.map Prod.fst) :
    ctxUpdate (ctxInsert ctx k v) l = ctxUpdate ctx l := by
  induction l generalizing ctx with
  | nil => simp at h
  | cons p rest ih =>
      by_cases hk : k = p.1
      · subst hk
        show ctxUpdate (ctxInsert (ctxInsert ctx p.1 v) p.1 p.2) rest = _
        rw [ctxInsert_shadow]
        rfl
      · have hkr : k ∈ rest.map Prod.fst := by
          rcases List.mem_map.mp h with ⟨q, hq, hq1⟩
          rcases List.mem_cons.mp hq with rfl | hq'
          · exact absurd hq1.symm hk
          · exact List.mem_map.mpr ⟨q, hq', hq1⟩
        show ctxUpdate (ctxInsert (ctxInsert ctx k v) p.1 p.2) rest = _
        rw [ctxInsert_comm _ _ _ _ _ hk]
        exact ih _ hkr

theorem ctxUpdate_not_mem (ctx : Ctx) (k : RefKey) (l : List (RefKey × List ℚ))
    (h : k ∉ l.map Prod.fst) :
    ctxUpdate ctx l k = ctx k := by
  induction l generalizing ctx with
  | nil => rfl
  | cons p rest ih =>
      have h1 : k ≠ p.1 := fun he => h (List.mem_map.mpr ⟨p, List.mem_cons_self p rest, he.symm⟩)
      have h2 : k ∉ rest.map Prod.fst := fun hm => by
        rcases List.mem_map.mp hm with ⟨q, hq, hq1⟩
        exact h (List.mem_map.mpr ⟨q, List.mem_cons_of_mem p hq, hq1⟩)
      show ctxUpdate (ctxInsert ctx p.1 p.2) rest k = ctx k
      rw [ih _ h2, ctxInsert_other _ _ _ _ h1]

/-- Claim C10, confirmed: overriding a reference that the reference-map
builder materializes for the document has no effect on `run()`: `run()`
first rebuilds the reference map and `context.update` overwrites the
overridden entry before any formula is evaluated, so the whole run output
(results, final context, errors) is identical to a run without the
override. -/
theorem override_built_ref_no_effect (doc : InputsDoc) (calcs : List CalcDef)
    (ctx : Ctx) (k : RefKey) (v : List ℚ)
    (h : k ∈ (refMapList doc (buildTimeline doc.config)).map Prod.fst) :
    runEngine doc calcs (overrideInput ctx k v) = runEngine doc calcs ctx := by
  show evalFold calcs (scheduleOf calcs) (buildTimeline doc.config)
      (ctxUpdate (ctxInsert ctx k v) (refMapList doc (buildTimeline doc.config))) =
    evalFold calcs (scheduleOf calcs) (buildTimeline doc.config)
      (ctxUpdate ctx (refMapList doc (buildTimeline doc.config)))
  rw [ctxUpdate_insert_mem _ _ _ _ h]

/-- Claim C10, witness: overriding the builder-produced `T.MiY` before a
run of the soft-cycle document changes nothing. -/
theorem override_built_ref_no_effect_witness :
    RefKey.T "MiY" ∈ (refMapList inputsEmpty12 (buildTimeline inputsEmpty12.config)).map
      Prod.fst ∧
    runEngine inputsEmpty12 softCycleCalcs
        (overrideInput Ctx.empty (.T "MiY") (List.replicate 12 99)) =
      runEngine inputsEmpty12 softCycleCalcs Ctx.empty :=
  ⟨by decide, override_built_ref_no_effect inputsEmpty12 softCycleCalcs Ctx.empty
    (.T "MiY") (List.replicate 12 99) (by decide)⟩

/-- Claim C8, amended: `override_input` on an unknown reference is *not*
ignored — it binds the reference in the engine context, the binding
survives the reference-map rebuild at the start of `run()` (which only
overwrites builder-produced keys), and formulas referencing it resolve to
the overridden value, so a run's results can differ from the base run (the
counterexample exhibits the difference). -/
theorem override_unknown_ref_retained (doc : InputsDoc) (ctx : Ctx) (k : RefKey)
    (v : List ℚ)
    (h : k ∉ (refMapList doc (buildTimeline doc.config)).map Prod.fst) :
    buildReferenceMap (overrideInput ctx k v) doc (buildTimeline doc.config) k = some v := by
  unfold buildReferenceMap overrideInput
  rw [ctxUpdate_not_mem _ _ _ h]
  exact ctxInsert_self ctx k v

/-- Claim C8, witness: the retained override of the unknown `R99`. -/
theorem override_unknown_ref_retained_witness :
    RefKey.R 99 ∉ (refMapList inputsEmpty12 (buildTimeline inputsEmpty12.config)).map
      Prod.fst ∧
    buildReferenceMap (overrideInput Ctx.empty (.R 99) (List.replicate 12 5))
      inputsEmpty12 (buildTimeline inputsEmpty12.config) (.R 99) =
      some (List.replicate 12 5) :=
  ⟨by decide, override_unknown_ref_retained inputsEmpty12 Ctx.empty (.R 99)
    (List.replicate 12 5) (by decide)⟩

theorem buildIndexationRefs_cons (e : IndexDef) (rest : List IndexDef) (tl : Timeline) :
    buildIndexationRefs (e :: rest) tl =
      buildIndexationRefs [e] tl ++ buildIndexationRefs rest tl := by
  unfold buildIndexationRefs
  simp

theorem ctxUpdate_append (ctx : Ctx) (a b : List (RefKey × List ℚ)) :
    ctxUpdate ctx (a ++ b) = ctxUpdate (ctxUpdate ctx a) b := by
  unfold ctxUpdate
  exact List.foldl_append _ _ _ _

theorem buildIndexationRefs_single_key (e : IndexDef) (tl : Timeline) :
    ∃ arr, buildIndexationRefs [e] tl = [(RefKey.I e.id, arr)] := by
  unfold buildIndexationRefs
  by_cases h : e.name = some "None" ∨ e.id = 1 <;> simp [h]

theorem buildIndexationRefs_no_id1 (l : List IndexDef) (tl : Timeline) (ctx : Ctx)
    (h : ∀ e ∈ l, e.id ≠ 1) :
    ctxUpdate ctx (buildIndexationRefs l tl) (.I 1) = ctx (.I 1) := by
  induction l generalizing ctx with
  | nil => rfl
  | cons e rest ih =>
      rw [buildIndexationRefs_cons, ctxUpdate_append]
      rcases buildIndexationRefs_single_key e tl with ⟨arr, harr⟩
      rw [harr]
      rw [ih _ (fun x hx => h x (List.mem_cons_of_mem e hx))]
      show ctxInsert ctx (RefKey.I e.id) arr (.I 1) = ctx (.I 1)
      refine ctxInsert_other _ _ _ _ ?_
      intro he
      exact h e (List.mem_cons_self e rest) (by injection he.symm)

/-- Claim C9, amended: after the reference map is built, `I1` is the
all-ones array whenever the `indices` list contains an entry with id 1
(wherever that entry sits, and whatever its name).  When no entry has
id 1, `I1` is absent from the reference map altogether and a formula
occurrence of `I1` contributes `0.0`, not 1 (see the counterexample). -/
theorem I1_ones_of_id1 (indices : List IndexDef) (tl : Timeline) (ctx : Ctx)
    (h : ∃ e ∈ indices, e.id = 1) :
    ctxUpdate ctx (buildIndexationRefs indices tl) (.I 1) =
      some (List.replicate tl.periods 1) := by
  induction indices generalizing ctx with
  | nil => simp at h
  | cons e rest ih =>
      rw [buildIndexationRefs_cons, ctxUpdate_append]
      by_cases hr : ∃ x ∈ rest, x.id = 1
      · exact ih _ hr
      · have he : e.id = 1 := by
          rcases h with ⟨x, hx, hx1⟩
          rcases List.mem_cons.mp hx with rfl | hx'
          · exact hx1
          · exact absurd ⟨x, hx', hx1⟩ hr
        have hones : buildIndexationRefs [e] tl =
            [(RefKey.I e.id, List.replicate tl.periods 1)] := by
          unfold buildIndexationRefs
          simp [he]
        rw [hones]
        have hnone : ∀ x ∈ rest, x.id ≠ 1 := by
          intro x hx hx1
          exact hr ⟨x, hx, hx1⟩
        rw [buildIndexationRefs_no_id1 _ _ _ hnone]
        show ctxInsert ctx (RefKey.I e.id) _ (.I 1) = _
        rw [he]
        exact ctxInsert_self _ _ _

/-- Claim C9, witness: an indices list with an id-1 entry yields the
all-ones `I1` over the 12-period timeline. -/
theorem I1_ones_of_id1_witness :
    ctxUpdate Ctx.empty (buildIndexationRefs [{ id := 1 }] timeline12) (.I 1) =
      some (List.replicate timeline12.periods 1) :=
  I1_ones_of_id1 [{ id := 1 }] timeline12 Ctx.empty
    ⟨{ id := 1 }, List.mem_cons_self _ _, rfl⟩

/-! ### Claim C4: `CUMSUM_Y` opening-balance semantics -/

/-- The term `CUMSUM_Y`'s accumulator absorbs when the calendar year
changes between periods `j` and `j+1`: the inner array's value at the
*first* period of the year of period `j` (zero when no year change
happens there). -/
def yearChangeTerm (a : List ℚ) (year : List ℤ) (j : ℕ) : ℚ :=
  if year.getD (j+1) 0 ≠ year.getD j 0
  then a.getD (year.indexOf (year.getD j 0)) 0 else 0

theorem indexOf_getD_zero (l : List ℤ) (h : 0 < l.length) :
    l.indexOf (l.getD 0 0) = 0 := by
  cases l with
  | nil => simp at h
  | cons x xs => simp [List.indexOf_cons_self]

theorem indexOf_of_new_year (year : List ℤ) (hmono : year.Pairwise (· ≤ ·))
    (k : ℕ) (hk : k + 1 < year.length)
    (hne : year[k+1] ≠ year[k]) :
    year.indexOf (year[k+1]) = k + 1 := by
  have hmono' := List.pairwise_iff_getElem.mp hmono
  have hnotmem : year[k+1] ∉ year.take (k+1) := by
    intro hmem
    rcases List.mem_iff_getElem.mp hmem with ⟨i, hi, hieq⟩
    have hi' : i < k + 1 := by
      rw [List.length_take] at hi
      omega
    rw [List.getElem_take] at hieq
    have hik : year[i] ≤ year[k] := by
      rcases Nat.lt_or_ge i k with hlt | hge
      · exact hmono' i k (by omega) (by omega) hlt
      · have : i = k := by omega
        subst this
        exact le_refl _
    have hkk1 : year[k] ≤ year[k+1] := hmono' k (k+1) (by omega) hk (by omega)
    exact hne (le_antisymm (hieq ▸ hik) hkk1)
  have hidx : year.indexOf (year[k+1]) =
      (year.take (k+1) ++ year.drop (k+1)).indexOf (year[k+1]) := by
    rw [List.take_append_drop]
  rw [hidx, List.indexOf_append_of_not_mem hnotmem,
    List.drop_eq_getElem_cons hk, List.indexOf_cons_self, List.length_take]
  omega

theorem cumsumYGo_getD (a : List ℚ) (year : List ℤ) (ha : a.length = year.length)
    (hmono : year.Pairwise (· ≤ ·)) :
    ∀ (t k : ℕ) (T : ℚ), k + t + 1 < year.length →
      (cumsumYGo T (some (year.getD k 0))
        (some (a.getD (year.indexOf (year.getD k 0)) 0))
        ((a.zip year).drop (k+1))).getD t 0 =
      T + ∑ j in Finset.range (t+1), yearChangeTerm a year (k+j) := by
  have hzl : (a.zip year).length = year.length := by
    rw [List.length_zip, ha, Nat.min_self]
  intro t
  induction t with
  | zero =>
      intro k T hk
      have hk1 : k + 1 < (a.zip year).length := by omega
      have hk1a : k + 1 < a.length := by omega
      have hk1y : k + 1 < year.length := by omega
      rw [List.drop_eq_getElem_cons hk1, List.getElem_zip]
      show (if year[k+1] ≠ year.getD k 0 then
          T + a.getD (year.indexOf (year.getD k 0)) 0 else T) = _
      rw [Finset.sum_range_one]
      unfold yearChangeTerm
      simp only [Nat.add_zero]
      rw [List.getD_eq_getElem year 0 hk1y]
      by_cases hc : year[k+1] ≠ year.getD k 0
      · rw [if_pos hc, if_pos hc]
      · rw [if_neg hc, if_neg hc, add_zero]
  | succ t ih =>
      intro k T hk
      have hk1 : k + 1 < (a.zip year).length := by omega
      have hk1a : k + 1 < a.length := by omega
      have hk1y : k + 1 < year.length := by omega
      have hky : k < year.length := by omega
      rw [List.drop_eq_getElem_cons hk1, List.getElem_zip]
      show (cumsumYGo
          (if year[k+1] ≠ year.getD k 0 then
            T + a.getD (year.indexOf (year.getD k 0)) 0 else T)
          (some (year[k+1]))
          (if (some (year.getD k 0) ≠ some (year[k+1])) then
            some (a[k+1]) else some (a.getD (year.indexOf (year.getD k 0)) 0))
          ((a.zip year).drop (k+1+1))).getD t 0 = _
      by_cases hc : year[k+1] = year.getD k 0
      · have hc1 : ¬ year[k+1] ≠ year.getD k 0 := by simpa using hc
        have hc2 : ¬ (some (year.getD k 0) ≠ some (year[k+1])) := by simp [hc]
        rw [if_neg hc1, if_neg hc2]
        have hrw : year.getD k 0 = year.getD (k+1) 0 := by
          rw [List.getD_eq_getElem year 0 hk1y, hc]
        rw [show (some (year[k+1])) = some (year.getD (k+1) 0) by
          rw [List.getD_eq_getElem year 0 hk1y]]
        rw [show (some (a.getD (year.indexOf (year.getD k 0)) 0)) =
            some (a.getD (year.indexOf (year.getD (k+1) 0)) 0) by rw [← hrw]]
        rw [ih (k+1) T (by omega)]
        rw [Finset.sum_range_succ' (fun j => yearChangeTerm a year (k+j)) (t+1)]
        have hz : yearChangeTerm a year (k+0) = 0 := by
          unfold yearChangeTerm
          simp only [Nat.add_zero]
          rw [if_neg (by rwa [List.getD_eq_getElem year 0 hk1y])]
        rw [hz, add_zero]
        congr 1
        refine Finset.sum_congr rfl (fun j _ => ?_)
        congr 1
        omega
      · have hc1 : year[k+1] ≠ year.getD k 0 := hc
        have hc2 : (some (year.getD k 0) ≠ some (year[k+1])) := by
          intro he
          exact hc1 (Option.some.inj he).symm
        rw [if_pos hc1, if_pos hc2]
        have hidx : year.indexOf (year.getD (k+1) 0) = k + 1 := by
          rw [List.getD_eq_getElem year 0 hk1y]
          refine indexOf_of_new_year year hmono k hk1y ?_
          rwa [← List.getD_eq_getElem year 0 hky]
        rw [show (some (year[k+1])) = some (year.getD (k+1) 0) by
          rw [List.getD_eq_getElem year 0 hk1y]]
        rw [show (some (a[k+1])) =
            some (a.getD (year.indexOf (year.getD (k+1) 0)) 0) by
          rw [hidx, List.getD_eq_getElem a 0 hk1a]]
        rw [ih (k+1) _ (by omega)]
        rw [Finset.sum_range_succ' (fun j => yearChangeTerm a year (k+j)) (t+1)]
        have hz : yearChangeTerm a year (k+0) =
            a.getD (year.indexOf (year.getD k 0)) 0 := by
          unfold yearChangeTerm
          simp only [Nat.add_zero]
          rw [if_pos (by rwa [List.getD_eq_getElem year 0 hk1y])]
        rw [hz]
        have hcong : ∑ j in Finset.range (t+1), yearChangeTerm a year (k+1+j) =
            ∑ j in Finset.range (t+1), yearChangeTerm a year (k+(j+1)) := by
          refine Finset.sum_congr rfl (fun j _ => ?_)
          congr 1
          omega
        rw [hcong]
        ring

/-- Claim C4, confirmed: for a fully evaluated inner array `a` over a
timeline year array (monthly timelines have monotone years), the
`CUMSUM_Y` output `b` satisfies: `b[t]` is the sum, over the calendar
years completed strictly before period `t`'s year, of `a` at the *first*
period of each completed year (the `yearChangeTerm`s — not the sum over
the year); consequently `b` is constant within each calendar year, and
`b[t] = 0` throughout the first calendar year. -/
theorem cumsumY_opening_balance (a : List ℚ) (year : List ℤ)
    (ha : a.length = year.length) (hmono : year.Pairwise (· ≤ ·)) :
    (∀ t, t < year.length →
      (cumsumYArr a year).getD t 0 = ∑ j in Finset.range t, yearChangeTerm a year j) ∧
    (∀ s t, s < year.length → t < year.length →
      year.getD s 0 = year.getD t 0 →
      (cumsumYArr a year).getD s 0 = (cumsumYArr a year).getD t 0) ∧
    (∀ t, t < year.length → year.getD t 0 = year.getD 0 0 →
      (cumsumYArr a year).getD t 0 = 0) := by
  have hzl : (a.zip year).length = year.length := by
    rw [List.length_zip, ha, Nat.min_self]
  have part1 : ∀ t, t < year.length →
      (cumsumYArr a year).getD t 0 = ∑ j in Finset.range t, yearChangeTerm a year j := by
    intro t ht
    have h0 : 0 < (a.zip year).length := by omega
    have h0a : 0 < a.length := by omega
    have h0y : 0 < year.length := by omega
    unfold cumsumYArr
    rw [show (a.zip year) = (a.zip year)[0] :: (a.zip year).drop 1 by
      rw [← List.drop_eq_getElem_cons h0, List.drop_zero]]
    rw [List.getElem_zip]
    show (0 :: cumsumYGo 0 (some (year[0])) (some (a[0]))
      ((a.zip year).drop 1)).getD t 0 = _
    cases t with
    | zero => simp
    | succ t' =>
        rw [List.getD_cons_succ]
        rw [show (some (year[0])) = some (year.getD 0 0) by
          rw [List.getD_eq_getElem year 0 h0y]]
        rw [show (some (a[0])) =
            some (a.getD (year.indexOf (year.getD 0 0)) 0) by
          rw [indexOf_getD_zero year h0y, List.getD_eq_getElem a 0 h0a]]
        rw [show ((a.zip year).drop 1) = (a.zip year).drop (0+1) by norm_num]
        rw [cumsumYGo_getD a year ha hmono t' 0 0 (by omega), zero_add]
        refine Finset.sum_congr rfl fun j _ => ?_
        rw [Nat.zero_add]
  have hmonoD : ∀ i j, i ≤ j → j < year.length →
      year.getD i 0 ≤ year.getD j 0 := by
    intro i j hij hj
    rcases Nat.lt_or_ge i j with hlt | hge
    · rw [List.getD_eq_getElem year 0 (by omega), List.getD_eq_getElem year 0 hj]
      exact List.pairwise_iff_getElem.mp hmono i j (by omega) hj hlt
    · have : i = j := by omega
      subst this
      exact le_refl _
  have part2mono : ∀ s t, s ≤ t → t < year.length →
      year.getD s 0 = year.getD t 0 →
      (cumsumYArr a year).getD s 0 = (cumsumYArr a year).getD t 0 := by
    intro s t hst ht hy
    rw [part1 s (by omega), part1 t ht]
    have hzero : ∑ j in Finset.Ico s t, yearChangeTerm a year j = 0 := by
      refine Finset.sum_eq_zero fun j hj => ?_
      rcases Finset.mem_Ico.mp hj with ⟨hsj, hjt⟩
      have h1 : year.getD s 0 ≤ year.getD j 0 := hmonoD s j hsj (by omega)
      have h2 : year.getD j 0 ≤ year.getD (j+1) 0 := hmonoD j (j+1) (by omega) (by omega)
      have h3 : year.getD (j+1) 0 ≤ year.getD t 0 := hmonoD (j+1) t (by omega) ht
      unfold yearChangeTerm
      rw [if_neg ?_]
      simp only [ne_eq, not_not]
      omega
    have hsplit : ∑ j in Finset.range t, yearChangeTerm a year j =
        (∑ j in Finset.range s, yearChangeTerm a year j) +
          ∑ j in Finset.Ico s t, yearChangeTerm a year j := by
      rw [Finset.range_eq_Ico]
      exact (Finset.sum_Ico_consecutive _ (Nat.zero_le s) hst).symm
    rw [hsplit, hzero, add_zero]
  refine ⟨part1, ?_, ?_⟩
  · intro s t hs ht hy
    rcases Nat.le_total s t with hst | hts
    · exact part2mono s t hst ht hy
    · exact (part2mono t s hts hs hy.symm).symm
  · intro t ht hy
    rw [← part2mono 0 t (Nat.zero_le t) ht hy.symm, part1 0 (by omega)]
    simp

/-- A 24-month timeline (Jan 2025 through Dec 2026) for the C4 witness. -/
def timeline24 : Timeline := buildTimeline ⟨2025, 1, 2026, 12⟩

/-- A concrete fully-evaluated inner array `1, 2, ..., 24` for the C4 witness. -/
def innerDemo24 : List ℚ := (List.range 24).map (fun i => (i : ℚ) + 1)

set_option maxRecDepth 8000 in
/-- Witness for C4: the hypotheses of `cumsumY_opening_balance` hold on the
concrete 24-month timeline, and the theorem instantiates there. -/
theorem cumsumY_opening_balance_witness :
    innerDemo24.length = timeline24.year.length ∧
    timeline24.year.Pairwise (· ≤ ·) ∧
    (cumsumYArr innerDemo24 timeline24.year).getD 15 0 =
      ∑ j in Finset.range 15, yearChangeTerm innerDemo24 timeline24.year j :=
  ⟨by decide, by decide,
    (cumsumY_opening_balance innerDemo24 timeline24.year (by decide) (by decide)).1
      15 (by decide)⟩

/-! ### C3: totality and silence of `run()` on bad formulas -/

/-- A formula whose outer expression (outside every array-function
argument) contains a bad token, so that `eval` of the outer expression
raises and `_safe_eval` rescues the whole array. -/
def FX.hasBadOuter : FX → Bool
  | .bad => true
  | .add a b => a.hasBadOuter || b.hasBadOuter
  | .sub a b => a.hasBadOuter || b.hasBadOuter
  | .mul a b => a.hasBadOuter || b.hasBadOuter
  | .ifE c t f => c.hasBadOuter || t.hasBadOuter || f.hasBadOuter
  | _ => false

theorem evalOuterCore_none_of_bad (f : FX) (ctx : Ctx) (tl : Timeline) (t : ℕ)
    (h : f.hasBadOuter = true) : f.evalOuterCore ctx tl t = none := by
  induction f with
  | add a b iha ihb =>
      rcases Bool.or_eq_true_iff.mp h with h1 | h1
      · simp [FX.evalOuterCore, iha h1]
      · simp [FX.evalOuterCore, ihb h1]
  | sub a b iha ihb =>
      rcases Bool.or_eq_true_iff.mp h with h1 | h1
      · simp [FX.evalOuterCore, iha h1]
      · simp [FX.evalOuterCore, ihb h1]
  | mul a b iha ihb =>
      rcases Bool.or_eq_true_iff.mp h with h1 | h1
      · simp [FX.evalOuterCore, iha h1]
      · simp [FX.evalOuterCore, ihb h1]
  | ifE c th el ihc ihth ihel =>
      rcases Bool.or_eq_true_iff.mp h with h1 | h1
      · rcases Bool.or_eq_true_iff.mp h1 with h2 | h2
        · simp [FX.evalOuterCore, ihc h2]
        · simp [FX.evalOuterCore, ihth h2]
      · simp [FX.evalOuterCore, ihel h1]
  | bad => rfl
  | num v => simp [FX.hasBadOuter] at h
  | rref i => simp [FX.hasBadOuter] at h
  | iref k => simp [FX.hasBadOuter] at h
  | shift e n => simp [FX.hasBadOuter] at h
  | prevsum e => simp [FX.hasBadOuter] at h
  | prevval e => simp [FX.hasBadOuter] at h
  | cumsum e => simp [FX.hasBadOuter] at h
  | cumsumY e => simp [FX.hasBadOuter] at h
  | cumprod e => simp [FX.hasBadOuter] at h
  | cumprodY e => simp [FX.hasBadOuter] at h
  | count e => simp [FX.hasBadOuter] at h

theorem evaluate_length_eq (f : FX) (ctx : Ctx) (tl : Timeline) :
    (f.evaluate ctx tl).length = tl.periods := by
  simp [FX.evaluate]

theorem evaluate_bad_eq_zeros (f : FX) (ctx : Ctx) (tl : Timeline)
    (h : f.hasBadOuter = true) :
    f.evaluate ctx tl = List.replicate tl.periods 0 := by
  unfold FX.evaluate
  have h0 : ∀ t ∈ List.range tl.periods,
      (f.evalOuterCore ctx tl t).getD 0 = (fun _ : ℕ => (0 : ℚ)) t := by
    intro t _
    rw [evalOuterCore_none_of_bad f ctx tl t h]
    rfl
  rw [List.map_congr_left h0, List.map_const', List.length_range]

theorem evalStep_results_append (calcs : List CalcDef) (s : Schedule)
    (tl : Timeline) (st : Ctx × List (ℕ × List ℚ) × List ℕ) (p : ℕ) :
    ∃ tail, (evalStep calcs s tl st p).2.1 = st.2.1 ++ tail := by
  unfold evalStep
  dsimp only
  split
  · split
    · split
      · exact ⟨[], (List.append_nil _).symm⟩
      · exact ⟨_, rfl⟩
    · exact ⟨[], (List.append_nil _).symm⟩
  · split
    · exact ⟨_, rfl⟩
    · exact ⟨[], (List.append_nil _).symm⟩

theorem foldl_results_append (calcs : List CalcDef) (s : Schedule)
    (tl : Timeline) (l : List ℕ) (st : Ctx × List (ℕ × List ℚ) × List ℕ) :
    ∃ tail, (l.foldl (evalStep calcs s tl) st).2.1 = st.2.1 ++ tail := by
  induction l generalizing st with
  | nil => exact ⟨[], (List.append_nil _).symm⟩
  | cons p rest ih =>
      obtain ⟨t1, h1⟩ := evalStep_results_append calcs s tl st p
      obtain ⟨t2, h2⟩ := ih (evalStep calcs s tl st p)
      exact ⟨t1 ++ t2, by rw [List.foldl_cons, h2, h1, List.append_assoc]⟩

theorem foldl_results_mem (calcs : List CalcDef) (s : Schedule)
    (tl : Timeline) (l : List ℕ) (st : Ctx × List (ℕ × List ℚ) × List ℕ)
    (x : ℕ × List ℚ) (hx : x ∈ st.2.1) :
    x ∈ (l.foldl (evalStep calcs s tl) st).2.1 := by
  obtain ⟨tail, h⟩ := foldl_results_append calcs s tl l st
  rw [h]
  exact List.mem_append_left _ hx

theorem evalFold_writes_nonclustered (calcs : List CalcDef) (s : Schedule)
    (tl : Timeline) (ctx0 : Ctx) (i : ℕ) (g : FX)
    (hn : s.n2c i = none) (hmem : i ∈ s.sortedNodes)
    (hf : calcLookup calcs i = some g) :
    ∃ cx, (i, g.evaluate cx tl) ∈ (evalFold calcs s tl ctx0).results := by
  obtain ⟨p, hp, hpi⟩ := List.mem_iff_getElem.mp hmem
  have hsplit : List.range s.sortedNodes.length =
      (List.range p ++ [p]) ++ (List.range s.sortedNodes.length).drop (p + 1) := by
    rw [← List.range_succ]
    have h1 : (List.range s.sortedNodes.length).take (p + 1) = List.range (p + 1) := by
      rw [List.take_range]
      congr 1
      omega
    rw [← h1, List.take_append_drop]
  unfold evalFold
  dsimp only
  rw [hsplit, List.foldl_append, List.foldl_append]
  set st := (List.range p).foldl (evalStep calcs s tl)
    (ctx0, ([] : List (ℕ × List ℚ)), ([] : List ℕ)) with hst
  refine ⟨st.1, ?_⟩
  apply foldl_results_mem
  have hnode : s.sortedNodes.getD p 0 = i := by
    rw [List.getD_eq_getElem s.sortedNodes 0 hp, hpi]
  show (i, g.evaluate st.1 tl) ∈ (evalStep calcs s tl st p).2.1
  unfold evalStep
  dsimp only
  rw [hnode, hn, hf]
  exact List.mem_append_right _ (List.mem_singleton.mpr rfl)

/-- Claim C3, corrected: `run()` is total — the model of `run()` is a plain
function, every formula-level failure being rescued inside
`evaluate_formula` — and for every non-clustered node whose formula has a
bad outer expression the node's result array is all zeros of length `P`;
downstream evaluation proceeds (every non-clustered node with a formula
gets a result array of length `P` regardless of bad formulas elsewhere).
But contrary to the claim, `engine.errors` remains empty: no entry records
the error message, because `_safe_eval` and the `_eval_expr_all_periods`
fallback swallow every exception before `_evaluate_all`'s `except` can
append one. -/
theorem run_total_and_silent (doc : InputsDoc) (calcs : List CalcDef) (ctx0 : Ctx)
    (i : ℕ) (f : FX)
    (hn : (scheduleOf calcs).n2c i = none)
    (hmem : i ∈ (scheduleOf calcs).sortedNodes)
    (hf : calcLookup calcs i = some f)
    (hbad : f.hasBadOuter = true) :
    (runEngine doc calcs ctx0).errors = [] ∧
    (i, List.replicate (buildTimeline doc.config).periods 0) ∈
      (runEngine doc calcs ctx0).results ∧
    (∀ j g, (scheduleOf calcs).n2c j = none → j ∈ (scheduleOf calcs).sortedNodes →
      calcLookup calcs j = some g →
      ∃ arr, (j, arr) ∈ (runEngine doc calcs ctx0).results ∧
        arr.length = (buildTimeline doc.config).periods) := by
  refine ⟨rfl, ?_, ?_⟩
  · obtain ⟨cx, hcx⟩ := evalFold_writes_nonclustered calcs (scheduleOf calcs)
      (buildTimeline doc.config)
      (buildReferenceMap ctx0 doc (buildTimeline doc.config)) i f hn hmem hf
    rw [evaluate_bad_eq_zeros f cx (buildTimeline doc.config) hbad] at hcx
    exact hcx
  · intro j g hjn hjmem hjf
    obtain ⟨cx, hcx⟩ := evalFold_writes_nonclustered calcs (scheduleOf calcs)
      (buildTimeline doc.config)
      (buildReferenceMap ctx0 doc (buildTimeline doc.config)) j g hjn hjmem hjf
    exact ⟨g.evaluate cx (buildTimeline doc.config), hcx,
      evaluate_length_eq g cx (buildTimeline doc.config)⟩

set_option maxRecDepth 10000 in
/-- Witness for C3 on the concrete two-node document `R1 = <bad>`,
`R2 = R1 + 1`. -/
theorem run_total_and_silent_witness :
    (scheduleOf badCalcs).n2c 1 = none ∧
    1 ∈ (scheduleOf badCalcs).sortedNodes ∧
    calcLookup badCalcs 1 = some .bad ∧
    FX.hasBadOuter .bad = true ∧
    (1, List.replicate (buildTimeline inputsEmpty12.config).periods 0) ∈
      (runEngine inputsEmpty12 badCalcs Ctx.empty).results :=
  ⟨by decide, by decide, by decide, rfl,
    (run_total_and_silent inputsEmpty12 badCalcs Ctx.empty 1 .bad
      (by decide) (by decide) (by decide) rfl).2.1⟩

/-! ### C1: the soft-cycle lag law inside cluster evaluation -/

theorem getD_set_ne (l : List ℚ) (t s : ℕ) (x d : ℚ) (h : s ≠ t) :
    (l.set t x).getD s d = l.getD s d := by
  rcases Nat.lt_or_ge s l.length with hs | hs
  · rw [List.getD_eq_getElem _ _ (by simpa using hs), List.getD_eq_getElem _ _ hs,
      List.getElem_set]
    rw [if_neg (fun he => h he.symm)]
  · rw [List.getD_eq_default _ _ (by simpa using hs), List.getD_eq_default _ _ hs]

theorem getD_set_self (l : List ℚ) (t : ℕ) (x d : ℚ) (h : t < l.length) :
    (l.set t x).getD t d = x := by
  rw [List.getD_eq_getElem _ _ (by simpa using h), List.getElem_set, if_pos rfl]

theorem mem_range_drop (P k u : ℕ) (h : u ∈ (List.range P).drop k) : k ≤ u := by
  obtain ⟨idx, hidx, he⟩ := List.mem_iff_getElem.mp h
  rw [List.getElem_drop, List.getElem_range] at he
  omega

theorem clusterWrite_other (f : ℕ → Option FX) (t : ℕ) (c : Ctx) (m n : ℕ)
    (h : n ≠ m) : (clusterWrite f t c m) (.R n) = c (.R n) := by
  cases hg : f m with
  | none => simp only [clusterWrite, hg]
  | some g =>
      simp only [clusterWrite, hg]
      exact ctxInsert_other _ _ _ _ (fun he => h (RefKey.R.inj he))

theorem stepFoldl_not_mem (f : ℕ → Option FX) (t : ℕ) (l : List ℕ) (c : Ctx)
    (n : ℕ) (h : n ∉ l) : (l.foldl (clusterWrite f t) c) (.R n) = c (.R n) := by
  induction l generalizing c with
  | nil => rfl
  | cons m rest ih =>
      have hnm : n ≠ m := fun he => h (by rw [he]; exact List.mem_cons_self m rest)
      rw [List.foldl_cons, ih _ (fun hm => h (List.mem_cons_of_mem m hm)),
        clusterWrite_other f t c m n hnm]

theorem clusterWrite_getD_ne (f : ℕ → Option FX) (t : ℕ) (c : Ctx) (m n s : ℕ)
    (h : s ≠ t) :
    (((clusterWrite f t c m) (.R n)).getD []).getD s 0 =
      ((c (.R n)).getD []).getD s 0 := by
  cases hg : f m with
  | none => simp only [clusterWrite, hg]
  | some g =>
      simp only [clusterWrite, hg]
      by_cases hnm : n = m
      · subst hnm
        rw [ctxInsert_self]
        simp only [Option.getD_some]
        exact getD_set_ne _ _ _ _ _ h
      · rw [ctxInsert_other _ _ _ _ (fun he => hnm (RefKey.R.inj he))]

theorem stepFoldl_getD_ne (f : ℕ → Option FX) (t : ℕ) (l : List ℕ) (c : Ctx)
    (n s : ℕ) (h : s ≠ t) :
    (((l.foldl (clusterWrite f t) c) (.R n)).getD []).getD s 0 =
      ((c (.R n)).getD []).getD s 0 := by
  induction l generalizing c with
  | nil => rfl
  | cons m rest ih =>
      rw [List.foldl_cons, ih (clusterWrite f t c m),
        clusterWrite_getD_ne f t c m n s h]

theorem clusterWrite_len (f : ℕ → Option FX) (t : ℕ) (c : Ctx) (m n : ℕ) :
    (((clusterWrite f t c m) (.R n)).getD []).length =
      ((c (.R n)).getD []).length := by
  cases hg : f m with
  | none => simp only [clusterWrite, hg]
  | some g =>
      simp only [clusterWrite, hg]
      by_cases hnm : n = m
      · subst hnm
        rw [ctxInsert_self]
        simp [List.length_set]
      · rw [ctxInsert_other _ _ _ _ (fun he => hnm (RefKey.R.inj he))]

theorem stepFoldl_len (f : ℕ → Option FX) (t : ℕ) (l : List ℕ) (c : Ctx) (n : ℕ) :
    (((l.foldl (clusterWrite f t) c) (.R n)).getD []).length =
      ((c (.R n)).getD []).length := by
  induction l generalizing c with
  | nil => rfl
  | cons m rest ih =>
      rw [List.foldl_cons, ih (clusterWrite f t c m), clusterWrite_len]

theorem periodsFoldl_getD_ne (f : ℕ → Option FX) (order : List ℕ) (ts : List ℕ)
    (c : Ctx) (n s : ℕ) (h : ∀ u ∈ ts, s ≠ u) :
    (((ts.foldl (fun cx u => clusterStep f order u cx) c) (.R n)).getD []).getD s 0 =
      ((c (.R n)).getD []).getD s 0 := by
  induction ts generalizing c with
  | nil => rfl
  | cons u rest ih =>
      rw [List.foldl_cons, ih _ (fun w hw => h w (List.mem_cons_of_mem u hw))]
      show (((clusterStep f order u c) (.R n)).getD []).getD s 0 = _
      unfold clusterStep
      exact stepFoldl_getD_ne f u order c n s (h u (List.mem_cons_self u rest))

theorem periodsFoldl_len (f : ℕ → Option FX) (order : List ℕ) (ts : List ℕ)
    (c : Ctx) (n : ℕ) :
    (((ts.foldl (fun cx u => clusterStep f order u cx) c) (.R n)).getD []).length =
      ((c (.R n)).getD []).length := by
  induction ts generalizing c with
  | nil => rfl
  | cons u rest ih =>
      rw [List.foldl_cons, ih _]
      show (((clusterStep f order u c) (.R n)).getD []).length = _
      unfold clusterStep
      exact stepFoldl_len f u order c n

theorem clusterInit_not_mem (order : List ℕ) (P : ℕ) (n : ℕ) :
    ∀ ctx : Ctx, n ∉ order → clusterInit order P ctx (.R n) = ctx (.R n) := by
  induction order with
  | nil => intro ctx _; rfl
  | cons m rest ih =>
      intro ctx h
      have hnm : n ≠ m := fun he => h (by rw [he]; exact List.mem_cons_self m rest)
      have hstep : clusterInit (m :: rest) P ctx =
          clusterInit rest P (ctxInsert ctx (.R m) (List.replicate P 0)) := rfl
      rw [hstep, ih _ (fun hm => h (List.mem_cons_of_mem m hm))]
      exact ctxInsert_other _ _ _ _ (fun he => hnm (RefKey.R.inj he))

theorem clusterInit_mem (order : List ℕ) (P : ℕ) (n : ℕ) :
    ∀ ctx : Ctx, n ∈ order →
      clusterInit order P ctx (.R n) = some (List.replicate P 0) := by
  induction order with
  | nil => intro ctx h; exact absurd h (List.not_mem_nil n)
  | cons m rest ih =>
      intro ctx h
      have hstep : clusterInit (m :: rest) P ctx =
          clusterInit rest P (ctxInsert ctx (.R m) (List.replicate P 0)) := rfl
      by_cases hr : n ∈ rest
      · rw [hstep]
        exact ih _ hr
      · have hnm : n = m := by
          rcases List.mem_cons.mp h with h1 | h1
          · exact h1
          · exact absurd h1 hr
        subst hnm
        rw [hstep, clusterInit_not_mem rest P n _ hr, ctxInsert_self]

/-- The cluster context just before period step `k`. -/
def preCtx (f : ℕ → Option FX) (order : List ℕ) (P : ℕ) (ctx : Ctx) (k : ℕ) : Ctx :=
  (List.range k).foldl (fun cx u => clusterStep f order u cx) (clusterInit order P ctx)

theorem preCtx_len (f : ℕ → Option FX) (order : List ℕ) (P : ℕ) (ctx : Ctx)
    (k n : ℕ) (hn : n ∈ order) :
    ((preCtx f order P ctx k (.R n)).getD []).length = P := by
  unfold preCtx
  rw [periodsFoldl_len, clusterInit_mem order P n ctx hn]
  simp

theorem evalAtPeriod_shift_rref (c : Ctx) (t : ℕ) (j : ℕ) :
    FX.evalAtPeriod c t (.shift (.rref j) 1) =
      if 1 ≤ t then ((c (.R j)).getD []).getD (t - 1) 0 else 0 := by
  unfold FX.evalAtPeriod FX.evalAtPeriodCore
  simp only [Option.getD_some]
  by_cases ht : 1 ≤ t
  · rw [if_pos ht, if_pos ht]
    unfold evalSimpleAtPeriod
    rw [if_neg (by omega)]
    have htn : ((t : ℤ) - 1).toNat = t - 1 := by omega
    simp only [Nat.cast_one]
    rw [htn]
    unfold SX.evalCore
    cases hc : c (.R j) with
    | none => simp
    | some arr => simp
  · rw [if_neg ht, if_neg ht]

theorem clusterWrite_shift_self (f : ℕ → Option FX) (t : ℕ) (c : Ctx) (i j : ℕ)
    (hf : f i = some (.shift (.rref j) 1)) :
    (clusterWrite f t c i) (.R i) =
      some (((c (.R i)).getD []).set t
        (if 1 ≤ t then ((c (.R j)).getD []).getD (t - 1) 0 else 0)) := by
  simp only [clusterWrite, hf]
  rw [ctxInsert_self, evalAtPeriod_shift_rref]

theorem clusterStep_shift_write (f : ℕ → Option FX) (order : List ℕ) (t : ℕ)
    (c : Ctx) (i j : ℕ) (hnd : order.Nodup) (hi : i ∈ order)
    (hf : f i = some (.shift (.rref j) 1)) :
    (clusterStep f order t c) (.R i) =
      some (((c (.R i)).getD []).set t
        (if 1 ≤ t then ((c (.R j)).getD []).getD (t - 1) 0 else 0)) := by
  obtain ⟨l1, l2, rfl⟩ := List.append_of_mem hi
  rw [List.nodup_append] at hnd
  obtain ⟨h1, h2, hdisj⟩ := hnd
  have hil2 : i ∉ l2 := (List.nodup_cons.mp h2).1
  have hil1 : i ∉ l1 := fun hmem => hdisj hmem (List.mem_cons_self i l2)
  unfold clusterStep
  rw [List.foldl_append, List.foldl_cons,
    stepFoldl_not_mem f t l2 _ i hil2,
    clusterWrite_shift_self f t _ i j hf,
    stepFoldl_not_mem f t l1 c i hil1]
  by_cases ht : 1 ≤ t
  · rw [if_pos ht, if_pos ht, stepFoldl_getD_ne f t l1 c j (t - 1) (by omega)]
  · rw [if_neg ht, if_neg ht]

theorem evalCluster_write_at (f : ℕ → Option FX) (order : List ℕ) (P : ℕ)
    (ctx : Ctx) (i j : ℕ) (t : ℕ) (hnd : order.Nodup) (hi : i ∈ order)
    (hf : f i = some (.shift (.rref j) 1)) (ht : t < P) :
    ((evalCluster f order P ctx (.R i)).getD []).getD t 0 =
      if 1 ≤ t then ((preCtx f order P ctx t (.R j)).getD []).getD (t - 1) 0
      else 0 := by
  have hsplit : List.range P =
      (List.range t ++ [t]) ++ (List.range P).drop (t + 1) := by
    rw [← List.range_succ]
    have h1 : (List.range P).take (t + 1) = List.range (t + 1) := by
      rw [List.take_range]
      congr 1
      omega
    rw [← h1, List.take_append_drop]
  unfold evalCluster
  rw [hsplit, List.foldl_append, List.foldl_append,
    periodsFoldl_getD_ne f order _ _ i t
      (fun u hu => by have := mem_range_drop P (t + 1) u hu; omega)]
  show (((clusterStep f order t (preCtx f order P ctx t)) (.R i)).getD []).getD t 0 = _
  rw [clusterStep_shift_write f order t _ i j hnd hi hf]
  simp only [Option.getD_some]
  rw [getD_set_self]
  rw [preCtx_len f order P ctx t i hi]
  exact ht

theorem evalCluster_stable_below (f : ℕ → Option FX) (order : List ℕ) (P : ℕ)
    (ctx : Ctx) (j : ℕ) (t : ℕ) (ht : t < P) (h1 : 1 ≤ t) :
    ((evalCluster f order P ctx (.R j)).getD []).getD (t - 1) 0 =
      ((preCtx f order P ctx t (.R j)).getD []).getD (t - 1) 0 := by
  have hsplit : List.range P = List.range t ++ (List.range P).drop t := by
    have h2 : (List.range P).take t = List.range t := by
      rw [List.take_range]
      congr 1
      omega
    rw [← h2, List.take_append_drop]
  unfold evalCluster
  rw [hsplit, List.foldl_append]
  exact periodsFoldl_getD_ne f order _ _ j (t - 1)
    (fun u hu => by have := mem_range_drop P t u hu; omega)

set_option maxRecDepth 10000 in
/-- Claim C1, corrected: on the specification's scenario (`R10 = R11 + 1`,
`R11 = SHIFT(R10, 1)`, 12 monthly periods) the soft cycle closes through a
hard path, a cluster is detected and evaluated period by period, and the
results are exactly `R10 = [1,…,12]`, `R11 = [0,…,11]`.  The general lag
law `R<i>[0] = 0` and `R<i>[t] = R<j>[t-1]` holds for every formula
`R<i> = SHIFT(R<j>, 1)` whose node is evaluated *inside a cluster* (any
member list without duplicates containing `i` and `j`, any period count,
any starting context).  It does not hold for every run: when `R<j>`
depends on `R<i>` only through `SHIFT`-family references no cluster is
detected and both nodes become residual (see the counterexample). -/
theorem softCycle_shift_lag :
    (resLookup (runEngine inputsEmpty12 softCycleCalcs Ctx.empty).results 10 =
       some [1, 2, 3, 4, 5, 6, 7, 8, 9, 10, 11, 12] ∧
     resLookup (runEngine inputsEmpty12 softCycleCalcs Ctx.empty).results 11 =
       some [0, 1, 2, 3, 4, 5, 6, 7, 8, 9, 10, 11]) ∧
    (∀ (formulas : ℕ → Option FX) (order : List ℕ) (P : ℕ) (ctx : Ctx) (i j : ℕ),
      order.Nodup → i ∈ order → j ∈ order →
      formulas i = some (.shift (.rref j) 1) →
      (0 < P → ((evalCluster formulas order P ctx (.R i)).getD []).getD 0 0 = 0) ∧
      (∀ t, 1 ≤ t → t < P →
        ((evalCluster formulas order P ctx (.R i)).getD []).getD t 0 =
          ((evalCluster formulas order P ctx (.R j)).getD []).getD (t - 1) 0)) := by
  constructor
  · exact ⟨by decide, by decide⟩
  · intro formulas order P ctx i j hnd hi hj hf
    constructor
    · intro hP
      rw [evalCluster_write_at formulas order P ctx i j 0 hnd hi hf hP,
        if_neg (by omega)]
    · intro t h1 ht
      rw [evalCluster_write_at formulas order P ctx i j t hnd hi hf ht,
        if_pos h1, evalCluster_stable_below formulas order P ctx j t ht h1]

set_option maxRecDepth 10000 in
/-- Witness for C1: the lag law instantiated on the scenario cluster
(`R11 = SHIFT(R10, 1)` with members `[10, 11]`, 12 periods) at `t = 5`. -/
theorem softCycle_shift_lag_witness :
    ([10, 11] : List ℕ).Nodup ∧
    calcLookup softCycleCalcs 11 = some (.shift (.rref 10) 1) ∧
    ((evalCluster (calcLookup softCycleCalcs) [10, 11] 12 Ctx.empty
        (.R 11)).getD []).getD 5 0 =
      ((evalCluster (calcLookup softCycleCalcs) [10, 11] 12 Ctx.empty
        (.R 10)).getD []).getD 4 0 :=
  ⟨by decide, by decide,
    (softCycle_shift_lag.2 (calcLookup softCycleCalcs) [10, 11] 12 Ctx.empty 11 10
      (by decide) (by decide) (by decide) (by decide)).2 5 (by decide) (by decide)⟩

/-! ### C7: topological write order -/

theorem dedupFirst_go_mem (l : List ℕ) :
    ∀ (acc : List ℕ) (x : ℕ),
      (x ∈ l.foldl (fun acc x => if x ∈ acc then acc else acc ++ [x]) acc) ↔
        x ∈ acc ∨ x ∈ l := by
  induction l with
  | nil =>
      intro acc x
      simp
  | cons a rest ih =>
      intro acc x
      rw [List.foldl_cons]
      by_cases ha : a ∈ acc
      · rw [if_pos ha, ih]
        simp only [List.mem_cons]
        constructor
        · rintro (h | h)
          · exact Or.inl h
          · exact Or.inr (Or.inr h)
        · rintro (h | h | h)
          · exact Or.inl h
          · rw [h]
            exact Or.inl ha
          · exact Or.inr h
      · rw [if_neg ha, ih]
        simp only [List.mem_append, List.mem_singleton, List.mem_cons]
        tauto

theorem dedupFirst_go_nodup (l : List ℕ) :
    ∀ acc : List ℕ, acc.Nodup →
      (l.foldl (fun acc x => if x ∈ acc then acc else acc ++ [x]) acc).Nodup := by
  induction l with
  | nil => intro acc h; exact h
  | cons a rest ih =>
      intro acc h
      rw [List.foldl_cons]
      by_cases ha : a ∈ acc
      · rw [if_pos ha]
        exact ih acc h
      · rw [if_neg ha]
        refine ih _ ?_
        rw [List.nodup_append]
        exact ⟨h, List.nodup_singleton a,
          fun x hx hx1 => ha (by rwa [List.mem_singleton.mp hx1] at hx)⟩

theorem dedupFirst_nodup (l : List ℕ) : (dedupFirst l).Nodup :=
  dedupFirst_go_nodup l [] List.nodup_nil

theorem dedupFirst_mem (l : List ℕ) (x : ℕ) : x ∈ dedupFirst l ↔ x ∈ l := by
  unfold dedupFirst
  rw [dedupFirst_go_mem]
  simp

theorem calcNodes_nodup (calcs : List CalcDef) : (calcNodes calcs).Nodup :=
  dedupFirst_nodup _

theorem nodup_append_dedup_filter (base e : List ℕ) (hb : base.Nodup) :
    (base ++ (dedupFirst e).filter (fun t => decide (t ∉ base))).Nodup := by
  rw [List.nodup_append]
  refine ⟨hb, List.Nodup.filter _ (dedupFirst_nodup e), ?_⟩
  intro x hx hx2
  have hdec := List.of_mem_filter hx2
  simp only [decide_eq_true_eq] at hdec
  exact hdec hx

theorem graph0_nodup (calcs : List CalcDef) (i : ℕ) : (graph0 calcs i).Nodup := by
  unfold graph0
  cases hc : calcLookup calcs i with
  | none => exact List.nodup_nil
  | some f => exact List.Nodup.filter _ (dedupFirst_nodup _)

theorem graph1_nodup (calcs : List CalcDef) (nodes : List ℕ) (g0 : ℕ → List ℕ)
    (n2c : ℕ → Option ℕ) (i : ℕ) (hg0 : (g0 i).Nodup) :
    (graph1 calcs nodes g0 n2c i).Nodup := by
  unfold graph1
  exact nodup_append_dedup_filter _ _ hg0

theorem graph2_nodup (merged : List (List ℕ)) (n2c : ℕ → Option ℕ)
    (g1 : ℕ → List ℕ) (i : ℕ) (hg1 : (g1 i).Nodup) :
    (graph2 merged n2c g1 i).Nodup := by
  unfold graph2
  by_cases hs : (n2c i).isSome
  · rw [if_pos hs]
    exact hg1
  · rw [if_neg hs]
    exact nodup_append_dedup_filter _ _ hg1

/-- The merged cluster sets of a schedule (the `merged` of `scheduleOf`). -/
def schedMerged (calcs : List CalcDef) : List (List ℕ) :=
  mergeSets (detectCycleSets (graph0 calcs) (calcNodes calcs) calcs)

/-- The final dependency graph of a schedule (the `g2` of `scheduleOf`). -/
def schedGraph (calcs : List CalcDef) : ℕ → List ℕ :=
  graph2 (schedMerged calcs) (nodeToCluster (schedMerged calcs))
    (graph1 calcs (calcNodes calcs) (graph0 calcs)
      (nodeToCluster (schedMerged calcs)))

theorem schedGraph_nodup (calcs : List CalcDef) (i : ℕ) :
    (schedGraph calcs i).Nodup :=
  graph2_nodup _ _ _ _ (graph1_nodup _ _ _ _ _ (graph0_nodup calcs i))

theorem calcLookup_of_mem_calcNodes (calcs : List CalcDef) (j : ℕ)
    (h : j ∈ calcNodes calcs) : ∃ g, calcLookup calcs j = some g := by
  unfold calcNodes at h
  rw [dedupFirst_mem] at h
  obtain ⟨cd, hcd, hid⟩ := List.mem_map.mp h
  have hfind : (calcs.reverse.find? (fun c => decide (c.id = j))).isSome := by
    rw [List.find?_isSome]
    exact ⟨cd, List.mem_reverse.mpr hcd, by simp [hid]⟩
  obtain ⟨cd2, hcd2⟩ := Option.isSome_iff_exists.mp hfind
  exact ⟨cd2.formula, by unfold calcLookup; rw [hcd2]; rfl⟩

theorem kahnRelax_foldl_fst (l : List ℕ) :
    l.Nodup → ∀ (ind : ℕ → ℤ) (out : List ℕ) (x : ℕ),
      ((l.foldl kahnRelax (ind, out)).1) x =
        if x ∈ l then ind x - 1 else ind x := by
  induction l with
  | nil =>
      intro _ ind out x
      simp
  | cons d rest ih =>
      intro hl ind out x
      obtain ⟨hd, hrest⟩ := List.nodup_cons.mp hl
      rw [List.foldl_cons,
        show kahnRelax (ind, out) d =
          ((fun y => if y = d then ind d - 1 else ind y),
           (if ind d - 1 = 0 then out ++ [d] else out)) from rfl,
        ih hrest]
      by_cases hx : x ∈ rest
      · rw [if_pos hx, if_pos (List.mem_cons_of_mem d hx),
          if_neg (fun (he : x = d) => hd (he ▸ hx))]
      · rw [if_neg hx]
        by_cases hxd : x = d
        · subst hxd
          rw [if_pos rfl, if_pos (List.mem_cons_self x rest)]
        · rw [if_neg hxd, if_neg (fun hm => by
            rcases List.mem_cons.mp hm with h | h
            · exact hxd h
            · exact hx h)]

theorem kahnRelax_foldl_snd (l : List ℕ) :
    l.Nodup → ∀ (ind : ℕ → ℤ) (out : List ℕ),
      ((l.foldl kahnRelax (ind, out)).2) =
        out ++ l.filter (fun d => decide (ind d - 1 = 0)) := by
  induction l with
  | nil =>
      intro _ ind out
      simp
  | cons d rest ih =>
      intro hl ind out
      obtain ⟨hd, hrest⟩ := List.nodup_cons.mp hl
      rw [List.foldl_cons,
        show kahnRelax (ind, out) d =
          ((fun y => if y = d then ind d - 1 else ind y),
           (if ind d - 1 = 0 then out ++ [d] else out)) from rfl,
        ih hrest]
      have hfeq : rest.filter
          (fun e => decide ((if e = d then ind d - 1 else ind e) - 1 = 0)) =
          rest.filter (fun e => decide (ind e - 1 = 0)) := by
        refine List.filter_congr (fun e he => ?_)
        rw [if_neg (fun (hh : e = d) => hd (hh ▸ he))]
      rw [hfeq, List.filter_cons]
      by_cases hdz : ind d - 1 = 0
      · rw [if_pos hdz, if_pos (by simpa using hdz)]
        simp [List.append_assoc]
      · rw [if_neg hdz, if_neg (by simpa using hdz)]

theorem length_filter_and_le (l : List ℕ) (P Q : ℕ → Bool) :
    (l.filter (fun d => P d && Q d)).length ≤ (l.filter P).length := by
  calc (l.filter (fun d => P d && Q d)).length
      = (l.filter (fun d => Q d && P d)).length := by
        exact congrArg _ (List.filter_congr fun d _ => Bool.and_comm _ _)
    _ = ((l.filter P).filter Q).length := by rw [List.filter_filter]
    _ ≤ (l.filter P).length := List.length_filter_le _ _

theorem filter_and_length_eq_imp (l : List ℕ) (P Q : ℕ → Bool) :
    (l.filter P).length = (l.filter (fun d => P d && Q d)).length →
    ∀ d ∈ l, P d = true → Q d = true := by
  induction l with
  | nil =>
      intro _ d hd
      exact absurd hd (List.not_mem_nil d)
  | cons a rest ih =>
      intro h d hd hPd
      rw [List.filter_cons, List.filter_cons] at h
      by_cases hPa : P a = true
      · rw [if_pos hPa] at h
        by_cases hQa : Q a = true
        · rw [if_pos (by simp [hPa, hQa])] at h
          simp only [List.length_cons] at h
          rcases List.mem_cons.mp hd with rfl | hdr
          · exact hQa
          · exact ih (by omega) d hdr hPd
        · rw [if_neg (by simp [hQa])] at h
          have hle := length_filter_and_le rest P Q
          simp only [List.length_cons] at h
          exact absurd h (by omega)
      · rw [if_neg hPa, if_neg (by simp [hPa])] at h
        rcases List.mem_cons.mp hd with rfl | hdr
        · exact absurd hPd hPa
        · exact ih h d hdr hPd

theorem cnt_append_singleton (l : List ℕ) :
    l.Nodup → ∀ (nodes acc : List ℕ) (q : ℕ), q ∉ acc → q ∈ nodes →
    (l.filter (fun d => decide (d ∈ nodes) && decide (d ∈ acc ++ [q]))).length =
    (l.filter (fun d => decide (d ∈ nodes) && decide (d ∈ acc))).length +
      (if q ∈ l then 1 else 0) := by
  induction l with
  | nil =>
      intro _ nodes acc q _ _
      simp
  | cons a rest ih =>
      intro hl nodes acc q hqa hqn
      obtain ⟨had, hrest⟩ := List.nodup_cons.mp hl
      rw [List.filter_cons, List.filter_cons]
      by_cases haq : a = q
      · subst haq
        rw [if_pos (by simp [hqn]), if_neg (by simp [hqa]),
          if_pos (List.mem_cons_self a rest)]
        simp only [List.length_cons]
        rw [ih hrest nodes acc a hqa hqn, if_neg had]
      · have hmm : (a ∈ acc ++ [q]) ↔ (a ∈ acc) := by
          rw [List.mem_append, List.mem_singleton]
          constructor
          · rintro (h | h)
            · exact h
            · exact absurd h haq
          · exact Or.inl
        have hcond : (decide (a ∈ nodes) && decide (a ∈ acc ++ [q])) =
            (decide (a ∈ nodes) && decide (a ∈ acc)) := by
          congr 1
          exact decide_eq_decide.mpr hmm
        rw [hcond]
        have hqrest : (q ∈ a :: rest) ↔ (q ∈ rest) := by
          rw [List.mem_cons]
          constructor
          · rintro (h | h)
            · exact absurd h.symm haq
            · exact h
          · exact Or.inr
        simp only [hqrest]
        by_cases hca : (decide (a ∈ nodes) && decide (a ∈ acc)) = true
        · rw [if_pos hca, if_pos hca]
          simp only [List.length_cons]
          rw [ih hrest nodes acc q hqa hqn]
          omega
        · rw [if_neg hca, if_neg hca]
          rw [ih hrest nodes acc q hqa hqn]

theorem count_zero_of_closed (g : ℕ → List ℕ) (nodes acc : List ℕ) (x : ℕ)
    (hclosed : ∀ d ∈ g x, d ∈ nodes → d ∈ acc) :
    ((g x).filter (fun d => decide (d ∈ nodes) && decide (d ∈ acc))).length =
    ((g x).filter (fun d => decide (d ∈ nodes))).length := by
  congr 1
  refine (List.filter_congr fun d hd => ?_).symm
  by_cases hdn : d ∈ nodes
  · simp [hdn, hclosed d hd hdn]
  · simp [hdn]

/-- The loop invariant of Kahn's algorithm: the accumulator and queue are
duplicate-free nodes; the in-degree of every node counts its in-node
dependencies not yet popped; every queued node has all its dependencies
popped; and every popped node's dependencies precede it in the
accumulator. -/
def KInv (g : ℕ → List ℕ) (nodes : List ℕ) (indeg : ℕ → ℤ)
    (queue acc : List ℕ) : Prop :=
  (acc ++ queue).Nodup ∧
  (∀ x ∈ acc, x ∈ nodes) ∧
  (∀ x ∈ queue, x ∈ nodes) ∧
  (∀ x ∈ nodes, indeg x =
    (((g x).filter (fun d => decide (d ∈ nodes))).length : ℤ) -
    (((g x).filter (fun d => decide (d ∈ nodes) && decide (d ∈ acc))).length : ℤ)) ∧
  (∀ x ∈ queue, ∀ d ∈ g x, d ∈ nodes → d ∈ acc) ∧
  (∀ (idx : ℕ) (h : idx < acc.length), ∀ d ∈ g acc[idx],
    d ∈ nodes → d ∈ acc.take idx)

theorem kahn_step_inv (g : ℕ → List ℕ) (nodes : List ℕ)
    (hnodes : nodes.Nodup) (hg : ∀ n, (g n).Nodup)
    (indeg : ℕ → ℤ) (q : ℕ) (qs acc : List ℕ)
    (hinv : KInv g nodes indeg (q :: qs) acc) :
    KInv g nodes ((radjOf g nodes q).foldl kahnRelax (indeg, [])).1
      (qs ++ ((radjOf g nodes q).foldl kahnRelax (indeg, [])).2)
      (acc ++ [q]) := by
  obtain ⟨hnd, haccN, hqN, hcount, hqsafe, hsorted⟩ := hinv
  have hradjnd : (radjOf g nodes q).Nodup := List.Nodup.filter _ hnodes
  have hfst := kahnRelax_foldl_fst (radjOf g nodes q) hradjnd indeg []
  have hsnd : ((radjOf g nodes q).foldl kahnRelax (indeg, [])).2 =
      (radjOf g nodes q).filter (fun d => decide (indeg d - 1 = 0)) := by
    rw [kahnRelax_foldl_snd (radjOf g nodes q) hradjnd indeg []]
    exact List.nil_append _
  have hqn : q ∈ nodes := hqN q (List.mem_cons_self q qs)
  obtain ⟨haccnd, hqqsnd, hdisj⟩ := List.nodup_append.mp hnd
  obtain ⟨hqnotqs, hqsnd⟩ := List.nodup_cons.mp hqqsnd
  have hqnotacc : q ∉ acc := fun hmem => hdisj hmem (List.mem_cons_self q qs)
  have hclosed : ∀ x ∈ acc, ∀ d ∈ g x, d ∈ nodes → d ∈ acc := by
    intro x hx
    obtain ⟨idx, hidx, heq⟩ := List.mem_iff_getElem.mp hx
    subst heq
    intro d hd hdn
    exact List.take_subset idx acc (hsorted idx hidx d hd hdn)
  have hacc0 : ∀ x ∈ acc, indeg x = 0 := by
    intro x hx
    rw [hcount x (haccN x hx), count_zero_of_closed g nodes acc x (hclosed x hx)]
    exact sub_self _
  have hque0 : ∀ x ∈ q :: qs, indeg x = 0 := by
    intro x hx
    rw [hcount x (hqN x hx), count_zero_of_closed g nodes acc x (hqsafe x hx)]
    exact sub_self _
  have hnewnd : ((radjOf g nodes q).foldl kahnRelax (indeg, [])).2.Nodup := by
    rw [hsnd]
    exact List.Nodup.filter _ hradjnd
  have hnewmem : ∀ d, d ∈ ((radjOf g nodes q).foldl kahnRelax (indeg, [])).2 →
      d ∈ nodes ∧ q ∈ g d ∧ indeg d = 1 := by
    intro d hd
    rw [hsnd, List.mem_filter] at hd
    obtain ⟨hd1, hd2⟩ := hd
    unfold radjOf at hd1
    rw [List.mem_filter] at hd1
    refine ⟨hd1.1, by simpa using hd1.2, ?_⟩
    have := of_decide_eq_true hd2
    omega
  refine ⟨?_, ?_, ?_, ?_, ?_, ?_⟩
  · have hassoc :
        (acc ++ [q]) ++ (qs ++ ((radjOf g nodes q).foldl kahnRelax (indeg, [])).2) =
        (acc ++ q :: qs) ++ ((radjOf g nodes q).foldl kahnRelax (indeg, [])).2 := by
      simp
    rw [hassoc, List.nodup_append]
    refine ⟨hnd, hnewnd, ?_⟩
    intro x hx hx2
    obtain ⟨_, _, hx1⟩ := hnewmem x hx2
    rcases List.mem_append.mp hx with h | h
    · have := hacc0 x h
      omega
    · have := hque0 x h
      omega
  · intro x hx
    rcases List.mem_append.mp hx with h | h
    · exact haccN x h
    · rw [List.mem_singleton.mp h]
      exact hqn
  · intro x hx
    rcases List.mem_append.mp hx with h | h
    · exact hqN x (List.mem_cons_of_mem q h)
    · exact (hnewmem x h).1
  · intro x hx
    rw [hfst x, cnt_append_singleton (g x) (hg x) nodes acc q hqnotacc hqn]
    have hradx : (x ∈ radjOf g nodes q) ↔ (q ∈ g x) := by
      unfold radjOf
      rw [List.mem_filter]
      constructor
      · rintro ⟨_, h2⟩
        exact of_decide_eq_true h2
      · intro h2
        exact ⟨hx, decide_eq_true h2⟩
    by_cases hqx : q ∈ g x
    · rw [if_pos (hradx.mpr hqx), if_pos hqx, hcount x hx]
      push_cast
      ring
    · rw [if_neg (fun hm => hqx (hradx.mp hm)), if_neg hqx, hcount x hx]
      push_cast
      ring
  · intro x hx d hd hdn
    rcases List.mem_append.mp hx with h | h
    · exact List.mem_append_left _ (hqsafe x (List.mem_cons_of_mem q h) d hd hdn)
    · obtain ⟨hxn, hqgx, hx1⟩ := hnewmem x h
      have hc := hcount x hxn
      rw [hx1] at hc
      have hcnt := cnt_append_singleton (g x) (hg x) nodes acc q hqnotacc hqn
      rw [if_pos hqgx] at hcnt
      have heq : ((g x).filter (fun e => decide (e ∈ nodes))).length =
          ((g x).filter (fun e => decide (e ∈ nodes) &&
            decide (e ∈ acc ++ [q]))).length := by
        omega
      exact of_decide_eq_true
        (filter_and_length_eq_imp (g x) _ _ heq d hd (decide_eq_true hdn))
  · intro idx h d hd hdn
    by_cases hidx : idx < acc.length
    · rw [List.getElem_append_left hidx] at hd
      rw [List.take_append_of_le_length (by omega)]
      exact hsorted idx hidx d hd hdn
    · have hidx2 : idx = acc.length := by
        have h2 := h
        rw [List.length_append, List.length_singleton] at h2
        omega
      rw [List.getElem_concat_length acc q idx hidx2] at hd
      have htake : (acc ++ [q]).take idx = acc := by
        rw [List.take_append_of_le_length (by omega), hidx2, List.take_length]
      rw [htake]
      exact hqsafe q (List.mem_cons_self q qs) d hd hdn

theorem kahnGo_out (g : ℕ → List ℕ) (nodes : List ℕ)
    (hnodes : nodes.Nodup) (hg : ∀ n, (g n).Nodup) :
    ∀ (fuel : ℕ) (indeg : ℕ → ℤ) (queue acc : List ℕ),
      KInv g nodes indeg queue acc →
      (kahnGo (radjOf g nodes) fuel indeg queue acc).Nodup ∧
      (∀ x ∈ kahnGo (radjOf g nodes) fuel indeg queue acc, x ∈ nodes) ∧
      (∀ (idx : ℕ) (h : idx < (kahnGo (radjOf g nodes) fuel indeg queue acc).length),
        ∀ d ∈ g ((kahnGo (radjOf g nodes) fuel indeg queue acc)[idx]),
          d ∈ nodes → d ∈ (kahnGo (radjOf g nodes) fuel indeg queue acc).take idx) := by
  intro fuel
  induction fuel with
  | zero =>
      intro indeg queue acc hinv
      obtain ⟨hnd, haccN, _, _, _, hsorted⟩ := hinv
      exact ⟨(List.nodup_append.mp hnd).1, fun x hx => haccN x hx, hsorted⟩
  | succ fuel ih =>
      intro indeg queue acc hinv
      cases queue with
      | nil =>
          obtain ⟨hnd, haccN, _, _, _, hsorted⟩ := hinv
          exact ⟨(List.nodup_append.mp hnd).1, fun x hx => haccN x hx, hsorted⟩
      | cons q qs =>
          exact ih _ _ _ (kahn_step_inv g nodes hnodes hg indeg q qs acc hinv)

theorem kahnSort_proper_sorted (g : ℕ → List ℕ) (nodes : List ℕ)
    (hnodes : nodes.Nodup) (hg : ∀ n, (g n).Nodup) :
    (kahnSort g nodes).1.Nodup ∧
    (∀ x ∈ (kahnSort g nodes).1, x ∈ nodes) ∧
    (∀ (idx : ℕ) (h : idx < (kahnSort g nodes).1.length),
      ∀ d ∈ g ((kahnSort g nodes).1[idx]), d ∈ nodes →
        d ∈ (kahnSort g nodes).1.take idx) := by
  have h0 : KInv g nodes
      (fun n => (((g n).filter (fun d => decide (d ∈ nodes))).length : ℤ))
      (nodes.filter (fun n =>
        decide ((((g n).filter (fun d => decide (d ∈ nodes))).length : ℤ) = 0)))
      [] := by
    refine ⟨?_, ?_, ?_, ?_, ?_, ?_⟩
    · rw [List.nil_append]
      exact List.Nodup.filter _ hnodes
    · intro x hx
      exact absurd hx (List.not_mem_nil x)
    · intro x hx
      exact List.mem_of_mem_filter hx
    · intro x hx
      have hnil : (g x).filter
          (fun d => decide (d ∈ nodes) && decide (d ∈ ([] : List ℕ))) = [] := by
        rw [List.filter_eq_nil_iff]
        intro a _
        simp
      rw [hnil]
      simp
    · intro x hx d hd hdn
      have hdec := List.of_mem_filter hx
      rw [decide_eq_true_eq] at hdec
      have hlen : ((g x).filter (fun d => decide (d ∈ nodes))).length = 0 := by
        exact_mod_cast hdec
      rw [List.length_eq_zero, List.filter_eq_nil_iff] at hlen
      exact absurd (decide_eq_true hdn) (hlen d hd)
    · intro idx h
      simp at h
  exact kahnGo_out g nodes hnodes hg _ _ _ _ h0

theorem kahnSort_residual_append_nodup (g : ℕ → List ℕ) (nodes : List ℕ)
    (hnodes : nodes.Nodup) (hg : ∀ n, (g n).Nodup) :
    ((kahnSort g nodes).1 ++ (kahnSort g nodes).2).Nodup := by
  obtain ⟨h1, _, _⟩ := kahnSort_proper_sorted g nodes hnodes hg
  have h2 : (kahnSort g nodes).2 =
      nodes.filter (fun n => decide (n ∉ (kahnSort g nodes).1)) := rfl
  rw [List.nodup_append]
  refine ⟨h1, by rw [h2]; exact List.Nodup.filter _ hnodes, ?_⟩
  intro x hx hx2
  rw [h2] at hx2
  have hno := List.of_mem_filter hx2
  rw [decide_eq_true_eq] at hno
  exact hno hx

theorem nodeToCluster_isSome_of_mem (merged : List (List ℕ)) (n cid : ℕ)
    (h : n ∈ merged.getD cid []) : (nodeToCluster merged n).isSome = true := by
  unfold nodeToCluster
  rw [List.getLast?_isSome]
  intro hempty
  by_cases hcid : cid < merged.length
  · have hmem : cid ∈ (List.range merged.length).filter
        (fun c => decide (n ∈ merged.getD c [])) := by
      rw [List.mem_filter]
      exact ⟨List.mem_range.mpr hcid, by simpa using h⟩
    rw [hempty] at hmem
    exact absurd hmem (List.not_mem_nil cid)
  · rw [List.getD_eq_default _ _ (by omega)] at h
    exact absurd h (List.not_mem_nil n)

theorem evalStep_keys (calcs : List CalcDef) (s : Schedule) (tl : Timeline)
    (hcl : ∀ (cid : ℕ), ∀ n ∈ s.clusters.getD cid [], (s.n2c n).isSome = true)
    (st : Ctx × List (ℕ × List ℚ) × List ℕ) (p : ℕ) :
    ∀ x ∈ (evalStep calcs s tl st p).2.1,
      x ∈ st.2.1 ∨ (s.n2c x.1).isSome = true ∨
        (s.sortedNodes.getD p 0 = x.1 ∧ s.n2c x.1 = none) := by
  intro x hx
  rcases hn : s.n2c (s.sortedNodes.getD p 0) with _ | cid
  · rcases hfm : calcLookup calcs (s.sortedNodes.getD p 0) with _ | f
    · have hred : (evalStep calcs s tl st p) = st := by
        unfold evalStep
        dsimp only
        rw [hn, hfm]
      rw [hred] at hx
      exact Or.inl hx
    · have hred : (evalStep calcs s tl st p).2.1 =
          st.2.1 ++ [(s.sortedNodes.getD p 0, FX.evaluate st.1 tl f)] := by
        unfold evalStep
        dsimp only
        rw [hn, hfm]
      rw [hred] at hx
      rcases List.mem_append.mp hx with h | h
      · exact Or.inl h
      · have hxe := List.mem_singleton.mp h
        refine Or.inr (Or.inr ⟨?_, ?_⟩)
        · rw [hxe]
        · rw [hxe]
          exact hn
  · rcases ht : triggerAt s p with _ | tcid
    · have hred : (evalStep calcs s tl st p) = st := by
        unfold evalStep
        dsimp only
        rw [hn, ht]
      rw [hred] at hx
      exact Or.inl hx
    · by_cases htc : tcid ∈ st.2.2
      · have hred : (evalStep calcs s tl st p) = st := by
          unfold evalStep
          dsimp only
          simp only [hn, ht]
          rw [if_pos htc]
        rw [hred] at hx
        exact Or.inl hx
      · have hred : (evalStep calcs s tl st p).2.1 =
            st.2.1 ++ (internalOrder s tcid).map (fun rid =>
              (rid, ((evalCluster (calcLookup calcs) (internalOrder s tcid)
                tl.periods st.1) (.R rid)).getD [])) := by
          unfold evalStep
          dsimp only
          simp only [hn, ht]
          rw [if_neg htc]
        rw [hred] at hx
        rcases List.mem_append.mp hx with h | h
        · exact Or.inl h
        · obtain ⟨rid, hrid, hxe⟩ := List.mem_map.mp h
          have hmem2 : rid ∈ s.clusters.getD tcid [] := by
            have hdec := List.of_mem_filter hrid
            exact of_decide_eq_true hdec
          refine Or.inr (Or.inl ?_)
          rw [← hxe]
          exact hcl tcid rid hmem2

theorem foldl_results_keys (calcs : List CalcDef) (s : Schedule) (tl : Timeline)
    (hcl : ∀ (cid : ℕ), ∀ n ∈ s.clusters.getD cid [], (s.n2c n).isSome = true)
    (ps : List ℕ) :
    ∀ (st : Ctx × List (ℕ × List ℚ) × List ℕ),
      ∀ x ∈ (ps.foldl (evalStep calcs s tl) st).2.1,
        x ∈ st.2.1 ∨ (s.n2c x.1).isSome = true ∨
          ∃ p ∈ ps, s.sortedNodes.getD p 0 = x.1 ∧ s.n2c x.1 = none := by
  induction ps with
  | nil =>
      intro st x hx
      exact Or.inl hx
  | cons p rest ih =>
      intro st x hx
      rw [List.foldl_cons] at hx
      rcases ih (evalStep calcs s tl st p) x hx with h | h | h
      · rcases evalStep_keys calcs s tl hcl st p x h with h2 | h2 | h2
        · exact Or.inl h2
        · exact Or.inr (Or.inl h2)
        · exact Or.inr (Or.inr ⟨p, List.mem_cons_self p rest, h2⟩)
      · exact Or.inr (Or.inl h)
      · obtain ⟨pp, hpp, hrest2⟩ := h
        exact Or.inr (Or.inr ⟨pp, List.mem_cons_of_mem p hpp, hrest2⟩)

theorem indexOf?_cons_self (x : ℕ) (l : List ℕ) : (x :: l).indexOf? x = some 0 := by
  rw [List.indexOf?_cons]
  simp

theorem indexOf?_cons_ne (a x : ℕ) (l : List ℕ) (h : x ≠ a) :
    (a :: l).indexOf? x = (l.indexOf? x).map Nat.succ := by
  rw [List.indexOf?_cons]
  rw [if_neg (fun he => h (eq_of_beq he).symm)]

theorem indexOf?_append_not_mem (l1 l2 : List ℕ) (x : ℕ) (h : x ∉ l1) :
    (l1 ++ l2).indexOf? x = (l2.indexOf? x).map (fun n => l1.length + n) := by
  induction l1 with
  | nil =>
      simp
  | cons a rest ih =>
      have hxa : x ≠ a := fun he => h (by rw [he]; exact List.mem_cons_self a rest)
      rw [List.cons_append, indexOf?_cons_ne a x _ hxa,
        ih (fun hm => h (List.mem_cons_of_mem a hm)), Option.map_map]
      cases l2.indexOf? x with
      | none => rfl
      | some n =>
          show some (Nat.succ (rest.length + n)) = some ((a :: rest).length + n)
          rw [List.length_cons]
          congr 1
          omega

theorem indexOf?_isSome_of_mem (l : List ℕ) (x : ℕ) (h : x ∈ l) :
    ∃ n, l.indexOf? x = some n := by
  induction l with
  | nil => exact absurd h (List.not_mem_nil x)
  | cons a rest ih =>
      by_cases hxa : x = a
      · subst hxa
        exact ⟨0, indexOf?_cons_self x rest⟩
      · rcases List.mem_cons.mp h with h1 | h1
        · exact absurd h1 hxa
        · obtain ⟨n, hn⟩ := ih h1
          exact ⟨n + 1, by rw [indexOf?_cons_ne a x rest hxa, hn]; rfl⟩

theorem mem_schedGraph_of_hardDep (calcs : List CalcDef) (i j : ℕ) (f : FX)
    (hf : calcLookup calcs i = some f) (hjd : j ∈ f.hardDeps)
    (hjn : j ∈ calcNodes calcs)
    (hni : nodeToCluster (schedMerged calcs) i = none) :
    j ∈ schedGraph calcs i := by
  have hg0 : j ∈ graph0 calcs i := by
    unfold graph0
    rw [hf, List.mem_filter]
    exact ⟨(dedupFirst_mem _ _).mpr hjd, by simpa using hjn⟩
  have hg1 : j ∈ graph1 calcs (calcNodes calcs) (graph0 calcs)
      (nodeToCluster (schedMerged calcs)) i := by
    unfold graph1
    dsimp only
    exact List.mem_append_left _ hg0
  unfold schedGraph graph2
  rw [if_neg (by rw [hni]; simp)]
  exact List.mem_append_left _ hg1

theorem writeIdx_lt_of_block (A C : List (ℕ × List ℚ)) (i j : ℕ) (vj : List ℚ)
    (hjA : j ∉ A.map Prod.fst) (hiA : i ∉ A.map Prod.fst) (hij : i ≠ j)
    (hiC : i ∈ C.map Prod.fst) :
    ∃ a b, writeIdx (A ++ [(j, vj)] ++ C) j = some a ∧
      writeIdx (A ++ [(j, vj)] ++ C) i = some b ∧ a < b := by
  unfold writeIdx
  rw [List.map_append, List.map_append]
  have hsing : ([(j, vj)] : List (ℕ × List ℚ)).map Prod.fst = [j] := rfl
  rw [hsing]
  obtain ⟨n, hn⟩ := indexOf?_isSome_of_mem (C.map Prod.fst) i hiC
  refine ⟨(A.map Prod.fst).length, (A.map Prod.fst).length + 1 + n, ?_, ?_, by omega⟩
  · have hassoc : (A.map Prod.fst ++ [j]) ++ C.map Prod.fst =
        A.map Prod.fst ++ (j :: C.map Prod.fst) := by
      rw [List.append_assoc]
      rfl
    rw [hassoc, indexOf?_append_not_mem _ _ j hjA, indexOf?_cons_self]
    rfl
  · have hiAj : i ∉ A.map Prod.fst ++ [j] := by
      intro hm
      rcases List.mem_append.mp hm with h | h
      · exact hiA h
      · exact hij (List.mem_singleton.mp h)
    rw [indexOf?_append_not_mem _ _ i hiAj, hn]
    show some ((A.map Prod.fst ++ [j]).length + n) = _
    rw [List.length_append, List.length_singleton]

/-- Claim C7, corrected: the strict write order holds for the properly
sorted part of the schedule.  If `R<i>` has the hard dependency `R<j>`
(`j` among `i`'s formula's hard dependencies and a graph node), `i` was
properly sorted by Kahn's algorithm (not residual), and neither node
belongs to a soft-cycle cluster, then `R<j>`'s result is written strictly
before `R<i>`'s in every run.  The claim's unconditional statement is
false: nodes of a hard cycle are residual, appended in document order
after the sorted nodes, and violate the order (see the counterexample). -/
theorem topo_write_order (doc : InputsDoc) (calcs : List CalcDef) (ctx0 : Ctx)
    (i j : ℕ) (f : FX)
    (hf : calcLookup calcs i = some f)
    (hjd : j ∈ f.hardDeps)
    (hjn : j ∈ calcNodes calcs)
    (hip : i ∈ (scheduleOf calcs).proper)
    (hni : (scheduleOf calcs).n2c i = none)
    (hnj : (scheduleOf calcs).n2c j = none) :
    ∃ a b, writeIdx (runEngine doc calcs ctx0).results j = some a ∧
      writeIdx (runEngine doc calcs ctx0).results i = some b ∧ a < b := by
  have hA : (scheduleOf calcs).n2c = nodeToCluster (schedMerged calcs) := rfl
  have hB : (scheduleOf calcs).clusters = schedMerged calcs := rfl
  have hC : (scheduleOf calcs).proper =
      (kahnSort (schedGraph calcs) (calcNodes calcs)).1 := rfl
  have hD : (scheduleOf calcs).sortedNodes =
      (kahnSort (schedGraph calcs) (calcNodes calcs)).1 ++
        (kahnSort (schedGraph calcs) (calcNodes calcs)).2 := rfl
  obtain ⟨ks1nd, ks1sub, ksorted⟩ := kahnSort_proper_sorted (schedGraph calcs)
    (calcNodes calcs) (calcNodes_nodup calcs) (schedGraph_nodup calcs)
  have hsnnd : (scheduleOf calcs).sortedNodes.Nodup := by
    rw [hD]
    exact kahnSort_residual_append_nodup (schedGraph calcs) (calcNodes calcs)
      (calcNodes_nodup calcs) (schedGraph_nodup calcs)
  have hclS : ∀ (cid : ℕ), ∀ n ∈ (scheduleOf calcs).clusters.getD cid [],
      ((scheduleOf calcs).n2c n).isSome = true := by
    intro cid n hn
    rw [hA]
    rw [hB] at hn
    exact nodeToCluster_isSome_of_mem _ n cid hn
  have hjg : j ∈ schedGraph calcs i :=
    mem_schedGraph_of_hardDep calcs i j f hf hjd hjn (by rw [← hA]; exact hni)
  rw [hC] at hip
  obtain ⟨pi, hpi, hpieq⟩ := List.mem_iff_getElem.mp hip
  have hjtake := ksorted pi hpi j (by rw [hpieq]; exact hjg) hjn
  rw [List.mem_take_iff_getElem] at hjtake
  obtain ⟨pj, hpjb, hpjeq⟩ := hjtake
  have hpj1 : pj < pi := lt_of_lt_of_le hpjb inf_le_left
  have hpj2 : pj < (kahnSort (schedGraph calcs) (calcNodes calcs)).1.length :=
    lt_of_lt_of_le hpjb inf_le_right
  have hpiL : pi < (scheduleOf calcs).sortedNodes.length := by
    rw [hD, List.length_append]
    omega
  have hpjL : pj < (scheduleOf calcs).sortedNodes.length := by
    rw [hD, List.length_append]
    omega
  have hsni : (scheduleOf calcs).sortedNodes.getD pi 0 = i := by
    have h1 : (scheduleOf calcs).sortedNodes.getD pi 0 =
        ((kahnSort (schedGraph calcs) (calcNodes calcs)).1 ++
          (kahnSort (schedGraph calcs) (calcNodes calcs)).2).getD pi 0 := by
      rw [hD]
    rw [h1, List.getD_eq_getElem _ 0 (by rw [List.length_append]; omega),
      List.getElem_append_left hpi]
    exact hpieq
  have hsnj : (scheduleOf calcs).sortedNodes.getD pj 0 = j := by
    have h1 : (scheduleOf calcs).sortedNodes.getD pj 0 =
        ((kahnSort (schedGraph calcs) (calcNodes calcs)).1 ++
          (kahnSort (schedGraph calcs) (calcNodes calcs)).2).getD pj 0 := by
      rw [hD]
    rw [h1, List.getD_eq_getElem _ 0 (by rw [List.length_append]; omega),
      List.getElem_append_left hpj2]
    exact hpjeq
  have hij : i ≠ j := by
    intro he
    have hne := List.pairwise_iff_getElem.mp ks1nd pj pi hpj2 hpi hpj1
    rw [hpjeq, hpieq] at hne
    exact hne he.symm
  have huniq : ∀ p k, p < (scheduleOf calcs).sortedNodes.length →
      k < (scheduleOf calcs).sortedNodes.length → p ≠ k →
      (scheduleOf calcs).sortedNodes.getD p 0 ≠
        (scheduleOf calcs).sortedNodes.getD k 0 := by
    intro p k hp hk hpk
    rw [List.getD_eq_getElem _ 0 hp, List.getD_eq_getElem _ 0 hk]
    rcases Nat.lt_or_ge p k with h | h
    · exact List.pairwise_iff_getElem.mp hsnnd p k hp hk h
    · have hlt : k < p := by omega
      exact (List.pairwise_iff_getElem.mp hsnnd k p hk hp hlt).symm
  obtain ⟨gj, hgj⟩ := calcLookup_of_mem_calcNodes calcs j hjn
  have hisn : i ∈ (scheduleOf calcs).sortedNodes := by
    rw [← hsni, List.getD_eq_getElem _ 0 hpiL]
    exact List.getElem_mem _
  have hjA : ∀ v : List ℚ, (j, v) ∉
      ((List.range pj).foldl
        (evalStep calcs (scheduleOf calcs) (buildTimeline doc.config))
        (buildReferenceMap ctx0 doc (buildTimeline doc.config),
         ([] : List (ℕ × List ℚ)), ([] : List ℕ))).2.1 := by
    intro v hv
    rcases foldl_results_keys calcs (scheduleOf calcs) (buildTimeline doc.config)
      hclS (List.range pj) _ (j, v) hv with h | h | h
    · exact absurd h (List.not_mem_nil _)
    · have h2 : ((scheduleOf calcs).n2c j).isSome = true := h
      rw [hnj] at h2
      simp at h2
    · obtain ⟨p, hpmem, hpeq, hpn⟩ := h
      have hplt : p < pj := List.mem_range.mp hpmem
      have hpeq2 : (scheduleOf calcs).sortedNodes.getD p 0 = j := hpeq
      exact huniq p pj (by omega) hpjL (by omega) (by rw [hpeq2, hsnj])
  have hiA : ∀ v : List ℚ, (i, v) ∉
      ((List.range pj).foldl
        (evalStep calcs (scheduleOf calcs) (buildTimeline doc.config))
        (buildReferenceMap ctx0 doc (buildTimeline doc.config),
         ([] : List (ℕ × List ℚ)), ([] : List ℕ))).2.1 := by
    intro v hv
    rcases foldl_results_keys calcs (scheduleOf calcs) (buildTimeline doc.config)
      hclS (List.range pj) _ (i, v) hv with h | h | h
    · exact absurd h (List.not_mem_nil _)
    · have h2 : ((scheduleOf calcs).n2c i).isSome = true := h
      rw [hni] at h2
      simp at h2
    · obtain ⟨p, hpmem, hpeq, hpn⟩ := h
      have hplt : p < pj := List.mem_range.mp hpmem
      have hpeq2 : (scheduleOf calcs).sortedNodes.getD p 0 = i := hpeq
      exact huniq p pi (by omega) hpiL (by omega) (by rw [hpeq2, hsni])
  have hsplitL : List.range (scheduleOf calcs).sortedNodes.length =
      (List.range pj ++ [pj]) ++
        (List.range (scheduleOf calcs).sortedNodes.length).drop (pj + 1) := by
    rw [← List.range_succ]
    have h1 : (List.range (scheduleOf calcs).sortedNodes.length).take (pj + 1) =
        List.range (pj + 1) := by
      rw [List.take_range]
      congr 1
      omega
    rw [← h1, List.take_append_drop]
  have hstepj : (evalStep calcs (scheduleOf calcs) (buildTimeline doc.config)
      ((List.range pj).foldl
        (evalStep calcs (scheduleOf calcs) (buildTimeline doc.config))
        (buildReferenceMap ctx0 doc (buildTimeline doc.config),
         ([] : List (ℕ × List ℚ)), ([] : List ℕ))) pj).2.1 =
      ((List.range pj).foldl
        (evalStep calcs (scheduleOf calcs) (buildTimeline doc.config))
        (buildReferenceMap ctx0 doc (buildTimeline doc.config),
         ([] : List (ℕ × List ℚ)), ([] : List ℕ))).2.1 ++
      [(j, FX.evaluate
        ((List.range pj).foldl
          (evalStep calcs (scheduleOf calcs) (buildTimeline doc.config))
          (buildReferenceMap ctx0 doc (buildTimeline doc.config),
           ([] : List (ℕ × List ℚ)), ([] : List ℕ))).1
        (buildTimeline doc.config) gj)] := by
    unfold evalStep
    dsimp only
    simp only [hsnj, hnj, hgj]
  have hCex : ∃ C, (runEngine doc calcs ctx0).results =
      ((List.range pj).foldl
        (evalStep calcs (scheduleOf calcs) (buildTimeline doc.config))
        (buildReferenceMap ctx0 doc (buildTimeline doc.config),
         ([] : List (ℕ × List ℚ)), ([] : List ℕ))).2.1 ++
      [(j, FX.evaluate
        ((List.range pj).foldl
          (evalStep calcs (scheduleOf calcs) (buildTimeline doc.config))
          (buildReferenceMap ctx0 doc (buildTimeline doc.config),
           ([] : List (ℕ × List ℚ)), ([] : List ℕ))).1
        (buildTimeline doc.config) gj)] ++ C := by
    obtain ⟨tail, htail⟩ := foldl_results_append calcs (scheduleOf calcs)
      (buildTimeline doc.config)
      ((List.range (scheduleOf calcs).sortedNodes.length).drop (pj + 1))
      (evalStep calcs (scheduleOf calcs) (buildTimeline doc.config)
        ((List.range pj).foldl
          (evalStep calcs (scheduleOf calcs) (buildTimeline doc.config))
          (buildReferenceMap ctx0 doc (buildTimeline doc.config),
           ([] : List (ℕ × List ℚ)), ([] : List ℕ))) pj)
    refine ⟨tail, ?_⟩
    have hrew : (runEngine doc calcs ctx0).results =
        (((List.range (scheduleOf calcs).sortedNodes.length).drop (pj + 1)).foldl
          (evalStep calcs (scheduleOf calcs) (buildTimeline doc.config))
          (evalStep calcs (scheduleOf calcs) (buildTimeline doc.config)
            ((List.range pj).foldl
              (evalStep calcs (scheduleOf calcs) (buildTimeline doc.config))
              (buildReferenceMap ctx0 doc (buildTimeline doc.config),
               ([] : List (ℕ × List ℚ)), ([] : List ℕ))) pj)).2.1 := by
      show ((List.range (scheduleOf calcs).sortedNodes.length).foldl
          (evalStep calcs (scheduleOf calcs) (buildTimeline doc.config))
          (buildReferenceMap ctx0 doc (buildTimeline doc.config),
           ([] : List (ℕ × List ℚ)), ([] : List ℕ))).2.1 = _
      conv_lhs => rw [hsplitL]
      rw [List.foldl_append, List.foldl_append, List.foldl_cons, List.foldl_nil]
    rw [hrew, htail, hstepj]
  obtain ⟨C, hresfull⟩ := hCex
  obtain ⟨cx, hcx⟩ := evalFold_writes_nonclustered calcs (scheduleOf calcs)
    (buildTimeline doc.config)
    (buildReferenceMap ctx0 doc (buildTimeline doc.config)) i f hni hisn hf
  have hcx2 : (i, FX.evaluate cx (buildTimeline doc.config) f) ∈
      (runEngine doc calcs ctx0).results := hcx
  rw [hresfull] at hcx2
  have hiC : i ∈ C.map Prod.fst := by
    rcases List.mem_append.mp hcx2 with h | h
    · rcases List.mem_append.mp h with h1 | h1
      · exact absurd h1 (hiA _)
      · have h2 := List.mem_singleton.mp h1
        exact absurd (congrArg Prod.fst h2) hij
    · exact List.mem_map.mpr ⟨_, h, rfl⟩
  have hjAm : j ∉ (((List.range pj).foldl
      (evalStep calcs (scheduleOf calcs) (buildTimeline doc.config))
      (buildReferenceMap ctx0 doc (buildTimeline doc.config),
       ([] : List (ℕ × List ℚ)), ([] : List ℕ))).2.1).map Prod.fst := by
    intro hm
    obtain ⟨pair, hpair, hpf⟩ := List.mem_map.mp hm
    have hpe : ((j : ℕ), pair.2) = pair := by rw [← hpf]
    exact hjA pair.2 (by rw [hpe]; exact hpair)
  have hiAm : i ∉ (((List.range pj).foldl
      (evalStep calcs (scheduleOf calcs) (buildTimeline doc.config))
      (buildReferenceMap ctx0 doc (buildTimeline doc.config),
       ([] : List (ℕ × List ℚ)), ([] : List ℕ))).2.1).map Prod.fst := by
    intro hm
    obtain ⟨pair, hpair, hpf⟩ := List.mem_map.mp hm
    have hpe : ((i : ℕ), pair.2) = pair := by rw [← hpf]
    exact hiA pair.2 (by rw [hpe]; exact hpair)
  rw [hresfull]
  exact writeIdx_lt_of_block _ C i j _ hjAm hiAm hij hiC

set_option maxRecDepth 10000 in
/-- Witness for C7: the ordering guarantee instantiated on the acyclic
two-node document `R1 = <bad>`, `R2 = R1 + 1` (hard edge `R2 → R1`). -/
theorem topo_write_order_witness :
    calcLookup badCalcs 2 = some (.add (.rref 1) (.num 1)) ∧
    1 ∈ FX.hardDeps (.add (.rref 1) (.num 1)) ∧
    1 ∈ calcNodes badCalcs ∧
    2 ∈ (scheduleOf badCalcs).proper ∧
    (scheduleOf badCalcs).n2c 2 = none ∧
    (scheduleOf badCalcs).n2c 1 = none ∧
    (∃ a b, writeIdx (runEngine inputsEmpty12 badCalcs Ctx.empty).results 1 = some a ∧
      writeIdx (runEngine inputsEmpty12 badCalcs Ctx.empty).results 2 = some b ∧
      a < b) :=
  ⟨by decide, by decide, by decide, by decide, by decide, by decide,
    topo_write_order inputsEmpty12 badCalcs Ctx.empty 2 1 (.add (.rref 1) (.num 1))
      (by decide) (by decide) (by decide) (by decide) (by decide) (by decide)⟩

end Glassbox
